import Mathlib

/-!
# Pizzeria: pricing and composition model

A shallow embedding of `Pizzeria/main.cpp`.

* `std::map<Ingredient, size_t>` is a list of entries kept in the order of the
  comparator `Ingredient::operator<` (which compares `cost` only); `bump` is
  `ingredients[k] += 1`.
* `size_t` is 64 bits wide, `int` and `uint` 32 bits.  The quantity counters
  and the running order total are natural numbers: wrapping one of them takes
  more than `2^32` calls on a single object.  Every other `size_t` or `int`
  computation carries its reduction explicitly.
* `double` is IEEE-754 binary64 with round-to-nearest-even; a finite positive
  double is `mant / 2^scale`.
* `std::reduce` is the left fold over the map in iteration order, with the
  accumulator of the type of its initial value `0`, an `int`.
* A computation whose behaviour the language leaves undefined is `none`.
-/

namespace Pizzeria

/-! ## Ingredient -/

/-- The value type `struct Ingredient`. -/
structure Ingredient where
  name : String
  cost : Nat
deriving DecidableEq, Repr

/-- The comparator `operator<(lhs, rhs)`: `lhs.cost < rhs.cost`. -/
def Ingredient.lt (lhs rhs : Ingredient) : Bool :=
  decide (lhs.cost < rhs.cost)

/-! ## The composition map -/

/-- The contents of a `std::map<Ingredient, size_t>`, in iteration order. -/
abbrev IngredientMap := List (Ingredient × Nat)

/-- The statement `m[k] += 1`: `operator[]` walks to the first entry whose key
is not less than `k`; when `k` is not less than that key either, the entry is
the one for `k` and its value is incremented, otherwise `(k, 0)` is inserted
in front of it and then incremented. -/
def bump : IngredientMap → Ingredient → IngredientMap
  | [], k => [(k, 0 + 1)]
  | (k', q) :: rest, k =>
    if k'.lt k then (k', q) :: bump rest k
    else if k.lt k' then (k, 0 + 1) :: (k', q) :: rest
    else (k', q + 1) :: rest

/-! ## Pizza -/

/-- The enumeration `Pizza::Size`. -/
inductive Size where
  | small
  | medium
  | large
  | xlarge
deriving DecidableEq, Repr

/-- The integer value of an enumerator. -/
def Size.toNat : Size → Nat
  | .small => 0
  | .medium => 1
  | .large => 2
  | .xlarge => 3

/-- The cast `(Pizza::Size)choice`, defined for the values of the enumeration. -/
def Size.cast : Nat → Option Size
  | 0 => some .small
  | 1 => some .medium
  | 2 => some .large
  | 3 => some .xlarge
  | _ => none

/-- The concrete subclass of `Pizza` an object belongs to. -/
inductive Variant where
  | vegan
  | hawaiian
  | pepperoni
deriving DecidableEq, Repr

/-- The state of a `Pizza` object: its dynamic type and its two fields. -/
structure Pizza where
  variant : Variant
  size : Size
  ingredients : IngredientMap
deriving DecidableEq, Repr

/-- The constructor `VeganPizza(size)`. -/
def VeganPizza (size : Size) : Pizza := ⟨.vegan, size, []⟩

/-- The constructor `HawaiianPizza(size)`. -/
def HawaiianPizza (size : Size) : Pizza := ⟨.hawaiian, size, []⟩

/-- The constructor `PepperoniPizza(size)`. -/
def PepperoniPizza (size : Size) : Pizza := ⟨.pepperoni, size, []⟩

/-- The freshly constructed pizza of a variant. -/
def Pizza.fresh : Variant → Size → Pizza
  | .vegan, size => VeganPizza size
  | .hawaiian, size => HawaiianPizza size
  | .pepperoni, size => PepperoniPizza size

/-- The method `Pizza::add`. -/
def Pizza.add (p : Pizza) (ingredient : Ingredient) : Pizza :=
  { p with ingredients := bump p.ingredients ingredient }

/-- The method `Pizza::getIngredientsList`. -/
def Pizza.getIngredientsList (p : Pizza) : String :=
  p.ingredients.foldl
    (fun ingredientsList e => ingredientsList ++ (e.1.name ++ ": " ++ Nat.repr e.2 ++ " / ")) ""

/-- The `switch` of `Pizza::getSize` on the integer value of the size. -/
def sizeLabel : Nat → String
  | 0 => "SM"
  | 1 => "MD"
  | 2 => "LG"
  | 3 => "XL"
  | _ => "UNKNOWN"

/-- The method `Pizza::getSize`. -/
def Pizza.getSize (p : Pizza) : String := sizeLabel p.size.toNat

/-- The overrides of `getBaseCost`. -/
def Pizza.getBaseCost (p : Pizza) : Nat :=
  match p.variant with
  | .vegan => 350
  | .hawaiian => 450
  | .pepperoni => 480

/-! ## Machine arithmetic -/

/-- A finite non-negative binary64 value, `mant / 2 ^ scale`. -/
structure Dbl where
  mant : Nat
  scale : Nat
deriving DecidableEq, Repr

/-- The rational value of a double. -/
def Dbl.toRat (d : Dbl) : ℚ := (d.mant : ℚ) / 2 ^ d.scale

/-- The overrides of `getCostMultiplier`: the doubles the literals `0.8`,
`1.2` and `1.5` denote (`0x3FE999999999999A`, `0x3FF3333333333333`,
`0x3FF8000000000000`). -/
def Pizza.getCostMultiplier (p : Pizza) : Dbl :=
  match p.variant with
  | .vegan => ⟨7205759403792794, 53⟩
  | .hawaiian => ⟨5404319552844595, 52⟩
  | .pepperoni => ⟨3, 1⟩

/-- The number of low bits a natural number has beyond 53 significant ones
(at most the first argument). -/
def excessBits : Nat → Nat → Nat
  | 0, _ => 0
  | fuel + 1, p => if p < 2 ^ 53 then 0 else excessBits fuel (p / 2) + 1

/-- Rounding of a natural number to 53 significant bits, to nearest, ties to
even: the binary64 rounding of an exact product, scaled to an integer. -/
def roundSig (p : Nat) : Nat :=
  let sh := excessBits 64 p
  let q := p / 2 ^ sh
  let r := p % 2 ^ sh
  if 2 ^ sh < 2 * r ∨ (2 * r = 2 ^ sh ∧ q % 2 = 1) then (q + 1) * 2 ^ sh else q * 2 ^ sh

/-- The conversion of a `size_t` value to `int`: reduction modulo `2^32` into
`[-2^31, 2^31)`. -/
def toInt (x : Nat) : Int :=
  if x % 2 ^ 32 < 2 ^ 31 then ((x % 2 ^ 32 : Nat) : Int) else ((x % 2 ^ 32 : Nat) : Int) - 2 ^ 32

/-- The conversion of an `int` value to `size_t`: reduction modulo `2^64`. -/
def toSizeT (a : Int) : Nat := (a % 2 ^ 64).toNat

/-- The expression `(size_t)(d * s)` for a double `d` and an `int` `s`: `s` is
converted to double exactly, the product is rounded once, and the conversion
to `size_t` truncates toward zero; it is undefined when the truncated value is
negative or does not fit. -/
def mulToSizeT (d : Dbl) (s : Int) : Option Nat :=
  let t := roundSig (d.mant * s.natAbs) / 2 ^ d.scale
  if 0 ≤ s then (if t < 2 ^ 64 then some t else none)
  else if t = 0 then some 0 else none

/-- One application of the lambda of `getCost` inside `std::reduce`: the `int`
accumulator is converted to the `size_t` parameter `lhs`, the `size_t` result
`lhs + rhs.first.cost * rhs.second` back to `int`. -/
def reduceStep (acc : Int) (rhs : Ingredient × Nat) : Int :=
  toInt ((toSizeT acc + (rhs.1.cost * rhs.2) % 2 ^ 64) % 2 ^ 64)

/-- The method `Pizza::getCost`. -/
def Pizza.getCost (p : Pizza) : Option Nat :=
  let baseCost := p.getBaseCost
  (mulToSizeT p.getCostMultiplier (p.ingredients.foldl reduceStep 0)).map
    fun ingredientsCost => (baseCost * (p.size.toNat + 1) + ingredientsCost) % 2 ^ 64

/-- The method `Pizza::getPizzaDetails`. -/
def Pizza.getPizzaDetails (p : Pizza) : Option String :=
  p.getCost.map fun cost => p.getSize ++ " / " ++ p.getIngredientsList ++ Nat.repr cost

/-- The overrides of `getDescription`. -/
def Pizza.getDescription (p : Pizza) : Option String :=
  match p.variant with
  | .vegan => p.getPizzaDetails.map fun details => "Vegan Pizza 🥦 / " ++ details
  | .hawaiian => p.getPizzaDetails.map fun details => "Hawaiian Pizza 🍍 / " ++ details
  | .pepperoni => p.getPizzaDetails.map fun details => "Pepperoni Pizza 🍕 / " ++ details

/-! ## Builders -/

/-- The loop `for (size_t i = 0; i < times; i++) product->add(ingredient)`. -/
def addLoop : Nat → Pizza → Ingredient → Pizza
  | 0, product, _ => product
  | times + 1, product, ingredient => addLoop times (product.add ingredient) ingredient

/-- The state of a `PizzaBuilder` object: its dynamic type (one builder
subclass per pizza variant) and the pizza its field `product` points to. -/
structure PizzaBuilder where
  kind : Variant
  product : Pizza
deriving DecidableEq, Repr

/-- The method `PizzaBuilder::getProduct`. -/
def PizzaBuilder.getProduct (b : PizzaBuilder) : Pizza := b.product

/-- The constructor `VeganBuilder(size)`. -/
def VeganBuilder (size : Size) : PizzaBuilder := ⟨.vegan, VeganPizza size⟩

/-- The constructor `HawaiianBuilder(size)`. -/
def HawaiianBuilder (size : Size) : PizzaBuilder := ⟨.hawaiian, HawaiianPizza size⟩

/-- The constructor `PepperoniBuilder(size)`. -/
def PepperoniBuilder (size : Size) : PizzaBuilder := ⟨.pepperoni, PepperoniPizza size⟩

/-- The override `VeganBuilder::with(ingredient, times)`. -/
def VeganBuilder.withTimes (b : PizzaBuilder) (ingredient : Ingredient) (times : Nat) :
    PizzaBuilder :=
  { b with product := addLoop times b.product ingredient }

/-- The override `HawaiianBuilder::with(ingredient, times)`. -/
def HawaiianBuilder.withTimes (b : PizzaBuilder) (ingredient : Ingredient) (times : Nat) :
    PizzaBuilder :=
  { b with product := addLoop times b.product ingredient }

/-- The override `PepperoniBuilder::with(ingredient, times)`. -/
def PepperoniBuilder.withTimes (b : PizzaBuilder) (ingredient : Ingredient) (times : Nat) :
    PizzaBuilder :=
  { b with product := addLoop times b.product ingredient }

/-- The virtual call `builder.with(ingredient, times)`. -/
def PizzaBuilder.withTimes (b : PizzaBuilder) (ingredient : Ingredient) (times : Nat) :
    PizzaBuilder :=
  match b.kind with
  | .vegan => VeganBuilder.withTimes b ingredient times
  | .hawaiian => HawaiianBuilder.withTimes b ingredient times
  | .pepperoni => PepperoniBuilder.withTimes b ingredient times

/-- The virtual call `builder.with(ingredient)`; each of the three overrides
is `with(ingredient, 1)`. -/
def PizzaBuilder.withOnce (b : PizzaBuilder) (ingredient : Ingredient) : PizzaBuilder :=
  match b.kind with
  | .vegan => b.withTimes ingredient 1
  | .hawaiian => b.withTimes ingredient 1
  | .pepperoni => b.withTimes ingredient 1

/-- The builder a client constructs for a variant. -/
def builderFor : Variant → Size → PizzaBuilder
  | .vegan, size => VeganBuilder size
  | .hawaiian, size => HawaiianBuilder size
  | .pepperoni, size => PepperoniBuilder size

/-- A call a client can make on a builder or, through `getProduct()`, on its
pizza. -/
inductive Call where
  | add (ingredient : Ingredient)
  | withTimes (ingredient : Ingredient) (times : Nat)
  | withOnce (ingredient : Ingredient)
deriving DecidableEq, Repr

/-- The effect of one call. -/
def Call.apply (b : PizzaBuilder) : Call → PizzaBuilder
  | .add ingredient => { b with product := b.product.add ingredient }
  | .withTimes ingredient times => b.withTimes ingredient times
  | .withOnce ingredient => b.withOnce ingredient

/-- The pizza reached from a freshly constructed one by a sequence of calls. -/
def reach (v : Variant) (size : Size) (calls : List Call) : Pizza :=
  (calls.foldl Call.apply (builderFor v size)).getProduct

/-! ## Order -/

/-- The state of an `Order` object. -/
structure Order where
  availableIngredients : List Ingredient
  pizzaListing : List Pizza
deriving DecidableEq, Repr

/-- The constructor `Order()`. -/
def Order.new : Order :=
  let salt : Ingredient := ⟨"Salt", 5⟩
  let pepper : Ingredient := ⟨"Pepper", 3⟩
  ⟨([].concat salt).concat pepper, []⟩

/-- The loop `for (auto pizza: pizzaListing) total += pizza->getCost()` of
`printTotal`, started with the given value of `total`. -/
def totalLoop : Nat → List Pizza → Option Nat
  | total, [] => some total
  | total, pizza :: rest =>
    match pizza.getCost with
    | none => none
    | some cost => totalLoop (total + cost) rest

/-- The method `Order::printTotal`, as the list of totals it writes: nothing
for an empty listing, else the value of `total` after the loop. -/
def Order.printTotal (o : Order) : Option (List Nat) :=
  if !o.pizzaListing.isEmpty then (totalLoop 0 o.pizzaListing).map fun total => [total]
  else some []

/-- The method `Order::inputPizzaSize` on the sequence of `uint` values read
from the input: it loops until a value lies between `small` and `xlarge` and
returns it as a size, with the input left over; it does not return when no
such value comes. -/
def inputPizzaSize : List Nat → Option (Size × List Nat)
  | [] => none
  | choice :: rest =>
    if Size.small.toNat ≤ choice ∧ choice ≤ Size.xlarge.toNat then
      (Size.cast choice).map fun size => (size, rest)
    else inputPizzaSize rest

/-- The contents of an `IngredientsChoice`, a `std::map<size_t, size_t>` from
catalog index to quantity, in iteration order (ascending index). -/
abbrev IngredientsChoice := List (Nat × Nat)

/-- The statement `ingredientsChoice[choice] += 1`. -/
def bumpChoice : IngredientsChoice → Nat → IngredientsChoice
  | [], k => [(k, 0 + 1)]
  | (k', q) :: rest, k =>
    if k' < k then (k', q) :: bumpChoice rest k
    else if k < k' then (k, 0 + 1) :: (k', q) :: rest
    else (k', q + 1) :: rest

/-- The loop of `Order::inputIngredients` on the sequence of `int` values read
from the input, from a given state of `ingredientsChoice`: an index of the
catalog is counted, `-1` returns the map with the input left over, any other
value is skipped; the loop does not return when no `-1` comes. -/
def inputIngredientsLoop (availableIngredients : List Ingredient) :
    IngredientsChoice → List Int → Option (IngredientsChoice × List Int)
  | _, [] => none
  | ingredientsChoice, choice :: rest =>
    if 0 ≤ choice ∧ choice.toNat < availableIngredients.length then
      inputIngredientsLoop availableIngredients (bumpChoice ingredientsChoice choice.toNat) rest
    else if choice = -1 then some (ingredientsChoice, rest)
    else inputIngredientsLoop availableIngredients ingredientsChoice rest

/-- The method `Order::inputIngredients`. -/
def Order.inputIngredients (o : Order) (input : List Int) :
    Option (IngredientsChoice × List Int) :=
  inputIngredientsLoop o.availableIngredients [] input

/-- The loop `for (auto [key, quantity]: ingredientsChoice)
builder.with(availableIngredients[key], quantity)` of the three order
methods; indexing the vector out of bounds is undefined. -/
def withChoices (availableIngredients : List Ingredient) :
    PizzaBuilder → IngredientsChoice → Option PizzaBuilder
  | builder, [] => some builder
  | builder, (key, quantity) :: rest =>
    match availableIngredients[key]? with
    | none => none
    | some ingredient =>
      withChoices availableIngredients (builder.withTimes ingredient quantity) rest

/-- The method `Order::orderVeganPizza`, after its two dialogs returned
`pizzaSize` and `ingredientsChoice`. -/
def Order.orderVeganPizza (o : Order) (pizzaSize : Size) (ingredientsChoice : IngredientsChoice) :
    Option Order :=
  let veganBuilder := VeganBuilder pizzaSize
  (withChoices o.availableIngredients veganBuilder ingredientsChoice).map fun builder =>
    { o with pizzaListing := o.pizzaListing.concat builder.getProduct }

/-- The method `Order::orderHaiwaiianPizza`, after its two dialogs returned
`pizzaSize` and `ingredientsChoice`. -/
def Order.orderHaiwaiianPizza (o : Order) (pizzaSize : Size)
    (ingredientsChoice : IngredientsChoice) : Option Order :=
  let hawaiianBuilder := HawaiianBuilder pizzaSize
  (withChoices o.availableIngredients hawaiianBuilder ingredientsChoice).map fun builder =>
    { o with pizzaListing := o.pizzaListing.concat builder.getProduct }

/-- The method `Order::orderPepperoniPizza`, after its two dialogs returned
`pizzaSize` and `ingredientsChoice`. -/
def Order.orderPepperoniPizza (o : Order) (pizzaSize : Size)
    (ingredientsChoice : IngredientsChoice) : Option Order :=
  let pepperoniBuilder := PepperoniBuilder pizzaSize
  (withChoices o.availableIngredients pepperoniBuilder ingredientsChoice).map fun builder =>
    { o with pizzaListing := o.pizzaListing.concat builder.getProduct }

/-! ## Observations used to state the properties -/

/-- The choice map that gives count `a` to catalog index 0 and count `b` to
index 1, indices of count zero being absent. -/
def choiceMap (a b : Nat) : IngredientsChoice :=
  (if 0 < a then [(0, a)] else []) ++ (if 0 < b then [(1, b)] else [])

/-- The quantity a choice map stores under index `k`, zero when absent. -/
def chosen (m : IngredientsChoice) (k : Nat) : Nat :=
  ((m.filter fun e => e.1 == k).map fun e => e.2).sum

/-- The quantity stored in an entry whose key equals `i` in name and in cost,
zero when there is no such entry. -/
def quantityByValue (m : IngredientMap) (i : Ingredient) : Nat :=
  match m.find? fun e => decide (e.1 = i) with
  | some e => e.2
  | none => 0

/-- The decimal multiplier of a variant, as the source writes it. -/
def decimalMultiplier : Variant → ℚ
  | .vegan => 0.8
  | .hawaiian => 1.2
  | .pepperoni => 1.5

/-- The sum of `cost * quantity` over the entries of a composition map. -/
def weightedSum (m : IngredientMap) : Nat :=
  (m.map fun e => e.1.cost * e.2).sum

/-- The sum of the unit costs of a sequence of added ingredients. -/
def costSum (adds : List Ingredient) : Nat :=
  (adds.map fun i => i.cost).sum

/-- The lookup `m.find(k)` of `std::map`: the entry whose key is equivalent to
`k` under the comparator (neither is less than the other). -/
def findEntry (m : IngredientMap) (k : Ingredient) : Option (Ingredient × Nat) :=
  m.find? fun e => !e.1.lt k && !k.lt e.1

/-- The quantity stored for `k`, zero when there is no entry. -/
def quantityOf (m : IngredientMap) (k : Ingredient) : Nat :=
  match findEntry m k with
  | some e => e.2
  | none => 0

/-- The entries of a map whose key is not equivalent to `k`. -/
def otherEntries (m : IngredientMap) (k : Ingredient) : IngredientMap :=
  m.filter fun e => e.1.lt k || k.lt e.1

/-- The text `getIngredientsList` appends for one entry. -/
def entryText (e : Ingredient × Nat) : String :=
  e.1.name ++ ": " ++ Nat.repr e.2 ++ " / "

/-- The keys of a list of entries come in strictly ascending order of cost. -/
def StrictlyAscending (m : IngredientMap) : Prop :=
  m.Pairwise fun e e' => e.1.cost < e'.1.cost

/-- The invariant of the composition map of a pizza: keys in strictly
ascending order of cost, and no stored quantity below one. -/
def WellFormed (p : Pizza) : Prop :=
  StrictlyAscending p.ingredients ∧ ∀ e ∈ p.ingredients, 1 ≤ e.2

/-- The integer `floor (c * S)` for the decimal multipliers `c = 0.8`, `1.2`
and `1.5` of the three variants (`floor_vegan`, `floor_hawaiian`,
`floor_pepperoni`). -/
def exactShare : Variant → Nat → Nat
  | .vegan, S => 4 * S / 5
  | .hawaiian, S => 6 * S / 5
  | .pepperoni, S => 3 * S / 2

/-! ## Rounding of the cost multiplier -/

/-- The three multipliers are binary64 values (a significand below `2^53`)
within half a unit in the last place of the decimals 0.8, 1.2 and 1.5. -/
theorem getCostMultiplier_nearest (s : Size) (m : IngredientMap) :
    ((⟨.vegan, s, m⟩ : Pizza).getCostMultiplier.mant < 2 ^ 53 ∧
      |(⟨.vegan, s, m⟩ : Pizza).getCostMultiplier.toRat - 0.8| ≤ 1 / 2 ^ 54) ∧
    ((⟨.hawaiian, s, m⟩ : Pizza).getCostMultiplier.mant < 2 ^ 53 ∧
      |(⟨.hawaiian, s, m⟩ : Pizza).getCostMultiplier.toRat - 1.2| ≤ 1 / 2 ^ 53) ∧
    ((⟨.pepperoni, s, m⟩ : Pizza).getCostMultiplier.mant < 2 ^ 53 ∧
      (⟨.pepperoni, s, m⟩ : Pizza).getCostMultiplier.toRat = 1.5) := by
  simp only [Pizza.getCostMultiplier, Dbl.toRat]
  refine ⟨⟨by norm_num, ?_⟩, ⟨by norm_num, ?_⟩, ⟨by norm_num, by norm_num⟩⟩
  · rw [abs_le]; constructor <;> norm_num
  · rw [abs_le]; constructor <;> norm_num

/-- An integer below `2^(53+j)` has at most `j` excess bits. -/
theorem excessBits_le (fuel : Nat) : ∀ p j : Nat, p < 2 ^ (53 + j) → excessBits fuel p ≤ j := by
  induction fuel with
  | zero => intro p j _; simp [excessBits]
  | succ f ih =>
    intro p j h
    unfold excessBits
    split
    · exact Nat.zero_le _
    · rename_i hp
      cases j with
      | zero => exact absurd h hp
      | succ j =>
        have : p / 2 < 2 ^ (53 + j) := by
          rw [Nat.div_lt_iff_lt_mul (by decide)]
          calc p < 2 ^ (53 + (j + 1)) := h
            _ = 2 ^ (53 + j) * 2 := by rw [← Nat.add_assoc, Nat.pow_succ]
        have := ih _ _ this
        omega

theorem le_excessBits (fuel : Nat) : ∀ p j : Nat, j ≤ fuel → 2 ^ (52 + j) ≤ p → j ≤ excessBits fuel p := by
  induction fuel with
  | zero => intro p j hj _; omega
  | succ f ih =>
    intro p j hj h
    cases j with
    | zero => exact Nat.zero_le _
    | succ j =>
      unfold excessBits
      have h53 : 2 ^ 53 ≤ 2 ^ (52 + (j + 1)) := Nat.pow_le_pow_right (by decide) (by omega)
      rw [if_neg (by omega)]
      have : 2 ^ (52 + j) ≤ p / 2 := by
        rw [Nat.le_div_iff_mul_le (by decide)]
        calc 2 ^ (52 + j) * 2 = 2 ^ (52 + (j + 1)) := by rw [← Nat.add_assoc, Nat.pow_succ]
          _ ≤ p := h
      have := ih _ _ (by omega) this
      omega

/-- Rounding is monotone above representable values: a multiple of the
rounding unit that is at most `p` is at most the rounded `p`. -/
theorem le_roundSig (p a : Nat) (hd : 2 ^ excessBits 64 p ∣ a) (ha : a ≤ p) : a ≤ roundSig p := by
  obtain ⟨c, rfl⟩ := hd
  have hpos : 0 < 2 ^ excessBits 64 p := Nat.pos_pow_of_pos _ (by decide)
  have hq : c ≤ p / 2 ^ excessBits 64 p := by
    rw [Nat.le_div_iff_mul_le hpos, Nat.mul_comm]; exact ha
  have h1 : 2 ^ excessBits 64 p * c ≤ p / 2 ^ excessBits 64 p * 2 ^ excessBits 64 p := by
    rw [Nat.mul_comm]; exact Nat.mul_le_mul_right _ hq
  unfold roundSig
  simp only []
  split
  · exact le_trans h1 (Nat.mul_le_mul_right _ (Nat.le_succ _))
  · exact h1

/-- Rounding moves a value up by at most half the rounding unit. -/
theorem roundSig_le (p : Nat) : 2 * roundSig p ≤ 2 * p + 2 ^ excessBits 64 p := by
  have hdm := Nat.div_add_mod p (2 ^ excessBits 64 p)
  unfold roundSig
  simp only []
  generalize 2 ^ excessBits 64 p = e at *
  generalize hq : p / e = q at *
  generalize hr : p % e = r at *
  have hc : q * e = e * q := Nat.mul_comm _ _
  split
  · rename_i h
    rw [Nat.add_mul, Nat.one_mul]
    omega
  · omega

/-- A multiple of the rounding unit closer to `p` from above than half a unit
is the rounded `p`. -/
theorem roundSig_eq (p a : Nat) (hd : 2 ^ excessBits 64 p ∣ a) (hp : p < a)
    (hclose : 2 * (a - p) < 2 ^ excessBits 64 p) : roundSig p = a := by
  obtain ⟨c, rfl⟩ := hd
  have hdm := Nat.div_add_mod p (2 ^ excessBits 64 p)
  have hlt := Nat.mod_lt p (Nat.pos_pow_of_pos (excessBits 64 p) (by decide : 0 < 2))
  unfold roundSig
  simp only []
  generalize 2 ^ excessBits 64 p = e at *
  generalize hq : p / e = q at *
  generalize hr : p % e = r at *
  have hcq : c = q + 1 := by
    have h2 : e * q < e * c := by omega
    have h3 : q < c := Nat.lt_of_mul_lt_mul_left h2
    have h4 : c < q + 2 := by
      by_contra hcon
      have : e * (q + 2) ≤ e * c := Nat.mul_le_mul_left _ (by omega)
      rw [Nat.mul_add] at this
      omega
    omega
  subst hcq
  rw [Nat.mul_add, Nat.mul_one] at hp hclose
  rw [if_pos (by left; omega), Nat.mul_comm]

/-- Dropping the excess bits leaves a significand below `2^53`. -/
theorem excessBits_spec (fuel : Nat) : ∀ p : Nat, p < 2 ^ (53 + fuel) → p / 2 ^ excessBits fuel p < 2 ^ 53 := by
  induction fuel with
  | zero => intro p h; simpa [excessBits] using h
  | succ f ih =>
    intro p h
    unfold excessBits
    split
    · rename_i hp; simpa using hp
    · have : p / 2 < 2 ^ (53 + f) := by
        rw [Nat.div_lt_iff_lt_mul (by decide)]
        calc p < 2 ^ (53 + (f + 1)) := h
          _ = 2 ^ (53 + f) * 2 := by rw [← Nat.add_assoc, Nat.pow_succ]
      have := ih _ this
      rwa [Nat.pow_succ, Nat.mul_comm, ← Nat.div_div_eq_div_mul]

theorem roundSig_small (p : Nat) (h : p < 2 ^ 53) : roundSig p = p := by
  have : excessBits 64 p = 0 := by
    unfold excessBits; rw [if_pos h]
  unfold roundSig
  simp [this, Nat.mod_one]

theorem pow_excessBits_dvd (p k : Nat) (hp : p < 2 ^ 84) (hk : 31 ≤ k) (n : Nat) :
    2 ^ excessBits 64 p ∣ 2 ^ k * n :=
  Dvd.dvd.mul_right (Nat.pow_dvd_pow 2 (le_trans (excessBits_le 64 p 31 hp) hk)) n

theorem pow_excessBits_le (p : Nat) (hp : p < 2 ^ 84) : 2 ^ excessBits 64 p ≤ 2 ^ 31 :=
  Nat.pow_le_pow_right (by decide) (excessBits_le 64 p 31 hp)

/-- The double product `0.8 * S` truncates to `floor (4 * S / 5)` for every
`int` value `S >= 0`. -/
theorem vegan_mul (S : Nat) (hS : S < 2 ^ 31) :
    roundSig (7205759403792794 * S) / 2 ^ 53 = 4 * S / 5 := by
  have hp : 7205759403792794 * S < 2 ^ 84 := by norm_num at hS ⊢; omega
  have hlo := le_roundSig _ _ (pow_excessBits_dvd _ 53 hp (by decide) (4 * S / 5))
    (by norm_num; omega)
  have hhi := roundSig_le (7205759403792794 * S)
  have he := pow_excessBits_le _ hp
  norm_num at hS hlo hhi he ⊢
  omega

/-- The double product `1.2 * S` truncates to `floor (6 * S / 5)` for every
`int` value `S >= 0`: where `6 * S / 5` is an integer the product, just below
it, rounds up to it. -/
theorem hawaiian_mul (S : Nat) (hS : S < 2 ^ 31) :
    roundSig (5404319552844595 * S) / 2 ^ 52 = 6 * S / 5 := by
  have hp : 5404319552844595 * S < 2 ^ 84 := by norm_num at hS ⊢; omega
  have he := pow_excessBits_le _ hp
  have hd := pow_excessBits_dvd _ 52 hp (by decide) (6 * S / 5)
  by_cases h5 : S % 5 = 0 ∧ 0 < S
  · have hsp := excessBits_spec 64 _ (lt_trans hp (by decide))
    rw [Nat.div_lt_iff_lt_mul (Nat.pos_pow_of_pos _ (by decide))] at hsp
    have := roundSig_eq (5404319552844595 * S) (2 ^ 52 * (6 * S / 5)) hd
      (by norm_num; omega) (by norm_num at hsp ⊢; omega)
    rw [this]
    norm_num
  · have h6 : 6 * S / 5 = S + S / 5 := by omega
    rw [h6] at hd ⊢
    have hlo := le_roundSig _ _ hd (by norm_num; omega)
    have hhi := roundSig_le (5404319552844595 * S)
    norm_num at hS hlo hhi he ⊢
    omega

/-- The double product `1.5 * S` is exact and truncates to `floor (3 * S /
2)`. -/
theorem pepperoni_mul (S : Nat) (hS : S < 2 ^ 31) :
    roundSig (3 * S) / 2 ^ 1 = 3 * S / 2 := by
  rw [roundSig_small _ (by norm_num at hS ⊢; omega)]
  norm_num

/-! ## The ingredient sum -/

theorem toInt_zero : toInt 0 = 0 := by decide

theorem toInt_of_lt (x : Nat) (h : x < 2 ^ 31) : toInt x = (x : Int) := by
  unfold toInt
  have h1 : x % 2 ^ 32 = x := Nat.mod_eq_of_lt (lt_trans h (by decide))
  rw [h1, if_pos h]

/-- One step of the reduction keeps the accumulator equal to the true sum
reduced to `int`. -/
theorem reduceStep_toInt (a : Nat) (e : Ingredient × Nat) :
    reduceStep (toInt a) e = toInt (a + e.1.cost * e.2) := by
  unfold reduceStep toInt toSizeT
  generalize e.1.cost * e.2 = t
  norm_num
  split <;> split <;> omega

/-- The `int` result of `std::reduce` is the weighted sum reduced to `int`. -/
theorem foldl_reduceStep (m : IngredientMap) : ∀ a : Nat,
    m.foldl reduceStep (toInt a) = toInt (a + weightedSum m) := by
  induction m with
  | nil => intro a; simp [weightedSum]
  | cons e rest ih =>
    intro a
    rw [List.foldl_cons, reduceStep_toInt, ih]
    simp [weightedSum, Nat.add_assoc]

/-- The statement `m[k] += 1` raises the weighted sum by the cost of `k`. -/
theorem weightedSum_bump (m : IngredientMap) (k : Ingredient) :
    weightedSum (bump m k) = weightedSum m + k.cost := by
  induction m with
  | nil => simp [bump, weightedSum]
  | cons e rest ih =>
    obtain ⟨k', q⟩ := e
    unfold bump
    split
    · simp only [weightedSum, List.map_cons, List.sum_cons] at ih ⊢
      omega
    · split
      · simp [weightedSum]; omega
      · rename_i h1 h2
        simp only [Ingredient.lt, decide_eq_true_eq] at h1 h2
        have : k'.cost = k.cost := by omega
        simp only [weightedSum, List.map_cons, List.sum_cons, Nat.mul_add, this]
        omega

theorem floor_vegan (S : Nat) : ⌊(0.8 : ℚ) * (S : ℚ)⌋₊ = 4 * S / 5 := by
  have : (0.8 : ℚ) * (S : ℚ) = ((4 * S : ℕ) : ℚ) / ((5 : ℕ) : ℚ) := by
    push_cast; norm_num; ring
  rw [this, Nat.floor_div_eq_div]

theorem floor_hawaiian (S : Nat) : ⌊(1.2 : ℚ) * (S : ℚ)⌋₊ = 6 * S / 5 := by
  have : (1.2 : ℚ) * (S : ℚ) = ((6 * S : ℕ) : ℚ) / ((5 : ℕ) : ℚ) := by
    push_cast; norm_num; ring
  rw [this, Nat.floor_div_eq_div]

theorem floor_pepperoni (S : Nat) : ⌊(1.5 : ℚ) * (S : ℚ)⌋₊ = 3 * S / 2 := by
  have : (1.5 : ℚ) * (S : ℚ) = ((3 * S : ℕ) : ℚ) / ((2 : ℕ) : ℚ) := by
    push_cast; norm_num; ring
  rw [this, Nat.floor_div_eq_div]

theorem foldl_reduceStep_zero (m : IngredientMap) :
    m.foldl reduceStep 0 = toInt (weightedSum m) := by
  have := foldl_reduceStep m 0
  rwa [toInt_zero, Nat.zero_add] at this

/-- Below `2^31` of weighted ingredient cost `getCost` is the exact formula.
-/
theorem getCost_of_weightedSum_lt (p : Pizza) (h : weightedSum p.ingredients < 2 ^ 31) :
    p.getCost = some (p.getBaseCost * (p.size.toNat + 1)
      + exactShare p.variant (weightedSum p.ingredients)) := by
  have hs : p.size.toNat ≤ 3 := by cases p.size <;> decide
  unfold Pizza.getCost
  rw [foldl_reduceStep_zero, toInt_of_lt _ h]
  unfold mulToSizeT Pizza.getCostMultiplier Pizza.getBaseCost exactShare
  simp only [Int.natAbs_ofNat, Int.ofNat_nonneg, if_true]
  generalize weightedSum p.ingredients = S at h
  cases p.variant
  · simp only [vegan_mul S h]
    rw [if_pos (by norm_num at h ⊢; omega), Option.map_some',
      Nat.mod_eq_of_lt (by norm_num at h ⊢; omega)]
  · simp only [hawaiian_mul S h]
    rw [if_pos (by norm_num at h ⊢; omega), Option.map_some',
      Nat.mod_eq_of_lt (by norm_num at h ⊢; omega)]
  · simp only [pepperoni_mul S h]
    rw [if_pos (by norm_num at h ⊢; omega), Option.map_some',
      Nat.mod_eq_of_lt (by norm_num at h ⊢; omega)]

theorem foldl_add_fields (adds : List Ingredient) : ∀ p : Pizza,
    (adds.foldl Pizza.add p).variant = p.variant ∧ (adds.foldl Pizza.add p).size = p.size ∧
    weightedSum (adds.foldl Pizza.add p).ingredients = weightedSum p.ingredients + costSum adds := by
  induction adds with
  | nil => intro p; simp [costSum]
  | cons i rest ih =>
    intro p
    obtain ⟨h1, h2, h3⟩ := ih (p.add i)
    refine ⟨h1, h2, ?_⟩
    rw [List.foldl_cons, h3]
    simp only [Pizza.add, weightedSum_bump, costSum, List.map_cons, List.sum_cons]
    omega

/-! ## The composition map under `add` -/

theorem mem_bump (m : IngredientMap) (k : Ingredient) (x : Ingredient × Nat) :
    x ∈ bump m k → x ∈ m ∨ (x.1.cost = k.cost ∧ 1 ≤ x.2) := by
  induction m with
  | nil =>
    intro h
    simp only [bump, List.mem_singleton] at h
    subst h; right; simp
  | cons e rest ih =>
    obtain ⟨k', q⟩ := e
    unfold bump
    split
    · intro h
      rcases List.mem_cons.1 h with h | h
      · left; rw [h]; exact List.mem_cons_self _ _
      · rcases ih h with h | h
        · left; exact List.mem_cons_of_mem _ h
        · right; exact h
    · split
      · intro h
        rcases List.mem_cons.1 h with h | h
        · right; subst h; simp
        · left; exact h
      · rename_i h1 h2
        simp only [Ingredient.lt, decide_eq_true_eq] at h1 h2
        intro h
        rcases List.mem_cons.1 h with h | h
        · right; subst h; simp; omega
        · left; exact List.mem_cons_of_mem _ h

/-- The statement `m[k] += 1` keeps the keys in strictly ascending order of
cost. -/
theorem bump_ascending (m : IngredientMap) (k : Ingredient) (h : StrictlyAscending m) :
    StrictlyAscending (bump m k) := by
  unfold StrictlyAscending at *
  induction m with
  | nil => simp [bump]
  | cons e rest ih =>
    obtain ⟨k', q⟩ := e
    rw [List.pairwise_cons] at h
    unfold bump
    split
    · rename_i h1
      simp only [Ingredient.lt, decide_eq_true_eq] at h1
      rw [List.pairwise_cons]
      refine ⟨?_, ih h.2⟩
      intro x hx
      rcases mem_bump _ _ _ hx with hx | hx
      · exact h.1 x hx
      · show k'.cost < x.1.cost
        omega
    · split
      · rename_i h1 h2
        simp only [Ingredient.lt, decide_eq_true_eq] at h1 h2
        rw [List.pairwise_cons, List.pairwise_cons]
        refine ⟨?_, h⟩
        intro x hx
        rcases List.mem_cons.1 hx with hx | hx
        · subst hx; exact h2
        · exact lt_trans h2 (h.1 x hx)
      · rw [List.pairwise_cons]
        exact ⟨fun x hx => h.1 x hx, h.2⟩

theorem bump_positive (m : IngredientMap) (k : Ingredient) (h : ∀ e ∈ m, 1 ≤ e.2) :
    ∀ e ∈ bump m k, 1 ≤ e.2 := by
  intro e he
  rcases mem_bump _ _ _ he with he | he
  · exact h e he
  · exact he.2

theorem findEntry_none_of_lt (m : IngredientMap) (k : Ingredient)
    (h : ∀ e ∈ m, k.cost < e.1.cost) : findEntry m k = none := by
  unfold findEntry
  rw [List.find?_eq_none]
  intro e he
  have := h e he
  simp [Ingredient.lt]
  omega

/-- After `m[k] += 1` the entry found for `k` is the former one with one more,
or `(k, 1)`. -/
theorem findEntry_bump_self (m : IngredientMap) (k : Ingredient) (h : StrictlyAscending m) :
    findEntry (bump m k) k =
      match findEntry m k with
      | some e => some (e.1, e.2 + 1)
      | none => some (k, 1) := by
  unfold StrictlyAscending at h
  induction m with
  | nil => simp [bump, findEntry, Ingredient.lt]
  | cons e rest ih =>
    obtain ⟨k', q⟩ := e
    rw [List.pairwise_cons] at h
    unfold bump
    split
    · rename_i h1
      have := ih h.2
      simp only [findEntry, List.find?_cons, h1, Bool.not_true, Bool.false_and] at this ⊢
      exact this
    · split
      · rename_i h1 h2
        have hn : findEntry rest k = none := by
          apply findEntry_none_of_lt
          intro e he
          simp only [Ingredient.lt, decide_eq_true_eq] at h2
          exact lt_trans h2 (h.1 e he)
        simp only [findEntry] at hn
        have hp : (!k'.lt k && !k.lt k') = false := by simp [h2]
        have hk : (!k.lt k && !k.lt k) = true := by simp [Ingredient.lt]
        simp only [findEntry, List.find?_cons, hp, hk]
        rw [hn]
      · rename_i h1 h2
        simp at h1 h2
        simp [findEntry, List.find?_cons, h1, h2]

/-- The statement `m[k] += 1` leaves the lookup of every key of another cost
as it was. -/
theorem findEntry_bump_other (m : IngredientMap) (k j : Ingredient) (h : j.cost ≠ k.cost) :
    findEntry (bump m k) j = findEntry m j := by
  induction m with
  | nil =>
    simp [bump, findEntry, Ingredient.lt]
    omega
  | cons e rest ih =>
    obtain ⟨k', q⟩ := e
    unfold bump
    split
    · simp only [findEntry, List.find?_cons] at ih ⊢
      rw [ih]
    · split
      · have : (!k.lt j && !j.lt k) = false := by
          simp [Ingredient.lt]; omega
        simp only [findEntry, List.find?_cons, this]
      · rename_i h1 h2
        simp only [Ingredient.lt, decide_eq_true_eq] at h1 h2
        have : (!k'.lt j && !j.lt k') = false := by
          simp [Ingredient.lt]; omega
        simp only [findEntry, List.find?_cons, this]

theorem otherEntries_bump (m : IngredientMap) (k : Ingredient) :
    otherEntries (bump m k) k = otherEntries m k := by
  induction m with
  | nil => simp [bump, otherEntries, Ingredient.lt]
  | cons e rest ih =>
    obtain ⟨k', q⟩ := e
    unfold bump
    split
    · simp only [otherEntries, List.filter_cons] at ih ⊢
      rw [ih]
    · split
      · have : (k.lt k || k.lt k) = false := by simp [Ingredient.lt]
        simp only [otherEntries, List.filter_cons, this]
        simp
      · rename_i h1 h2
        simp at h1 h2
        simp [otherEntries, List.filter_cons, h1, h2]

theorem length_bump (m : IngredientMap) (k : Ingredient) (h : StrictlyAscending m) :
    (bump m k).length = if (findEntry m k).isSome then m.length else m.length + 1 := by
  unfold StrictlyAscending at h
  induction m with
  | nil => simp [bump, findEntry]
  | cons e rest ih =>
    obtain ⟨k', q⟩ := e
    rw [List.pairwise_cons] at h
    have ih := ih h.2
    unfold bump
    split
    · rename_i h1
      simp only [findEntry, List.find?_cons, h1, Bool.not_true, Bool.false_and] at ih ⊢
      rw [List.length_cons, ih]
      split <;> simp
    · split
      · rename_i h1 h2
        have hn : findEntry rest k = none := by
          apply findEntry_none_of_lt
          intro e he
          simp only [Ingredient.lt, decide_eq_true_eq] at h2
          exact lt_trans h2 (h.1 e he)
        simp only [findEntry] at hn
        have hp : (!k'.lt k && !k.lt k') = false := by simp [h2]
        simp only [findEntry, List.find?_cons, hp, hn]
        simp
      · rename_i h1 h2
        simp at h1 h2
        simp [findEntry, List.find?_cons, h1, h2]

/-! ## Builders and reachable pizzas -/

theorem addLoop_eq_foldl (times : Nat) : ∀ (p : Pizza) (i : Ingredient),
    addLoop times p i = (List.replicate times i).foldl Pizza.add p := by
  induction times with
  | zero => intro p i; rfl
  | succ n ih => intro p i; rw [addLoop, ih, List.replicate_succ, List.foldl_cons]

theorem wellFormed_add (p : Pizza) (i : Ingredient) (h : WellFormed p) : WellFormed (p.add i) :=
  ⟨bump_ascending _ _ h.1, bump_positive _ _ h.2⟩

theorem wellFormed_addLoop (times : Nat) : ∀ (p : Pizza) (i : Ingredient),
    WellFormed p → WellFormed (addLoop times p i) := by
  induction times with
  | zero => intro p i h; exact h
  | succ n ih => intro p i h; exact ih _ _ (wellFormed_add p i h)

theorem withTimes_product (b : PizzaBuilder) (i : Ingredient) (n : Nat) :
    b.withTimes i n = { b with product := addLoop n b.product i } := by
  unfold PizzaBuilder.withTimes VeganBuilder.withTimes HawaiianBuilder.withTimes
    PepperoniBuilder.withTimes
  cases b.kind <;> rfl

theorem withOnce_eq (b : PizzaBuilder) (i : Ingredient) : b.withOnce i = b.withTimes i 1 := by
  unfold PizzaBuilder.withOnce
  cases b.kind <;> rfl

theorem wellFormed_apply (b : PizzaBuilder) (c : Call) (h : WellFormed b.product) :
    WellFormed (c.apply b).product := by
  cases c with
  | add i => exact wellFormed_add _ _ h
  | withTimes i n =>
    show WellFormed (b.withTimes i n).product
    rw [withTimes_product]; exact wellFormed_addLoop _ _ _ h
  | withOnce i =>
    show WellFormed (b.withOnce i).product
    rw [withOnce_eq, withTimes_product]; exact wellFormed_addLoop _ _ _ h

theorem wellFormed_foldl (calls : List Call) : ∀ b : PizzaBuilder,
    WellFormed b.product → WellFormed (calls.foldl Call.apply b).product := by
  induction calls with
  | nil => intro b h; exact h
  | cons c rest ih => intro b h; exact ih _ (wellFormed_apply b c h)

theorem wellFormed_builderFor (v : Variant) (s : Size) : WellFormed (builderFor v s).product := by
  cases v <;> exact ⟨List.Pairwise.nil, fun e he => absurd he (List.not_mem_nil e)⟩

/-- Every reachable pizza has a well-formed composition map. -/
theorem wellFormed_reach (v : Variant) (s : Size) (calls : List Call) :
    WellFormed (reach v s calls) :=
  wellFormed_foldl calls _ (wellFormed_builderFor v s)

theorem quantityOf_bump_self (m : IngredientMap) (k : Ingredient) (h : StrictlyAscending m) :
    quantityOf (bump m k) k = quantityOf m k + 1 := by
  unfold quantityOf
  rw [findEntry_bump_self m k h]
  cases findEntry m k <;> rfl

theorem addLoop_fields (n : Nat) : ∀ (p : Pizza) (i : Ingredient), WellFormed p →
    (addLoop n p i).variant = p.variant ∧ (addLoop n p i).size = p.size ∧
    quantityOf (addLoop n p i).ingredients i = quantityOf p.ingredients i + n ∧
    otherEntries (addLoop n p i).ingredients i = otherEntries p.ingredients i ∧
    ∀ j : Ingredient, j.cost ≠ i.cost →
      findEntry (addLoop n p i).ingredients j = findEntry p.ingredients j := by
  induction n with
  | zero => intro p i _; simp [addLoop]
  | succ n ih =>
    intro p i h
    obtain ⟨h1, h2, h3, h4, h5⟩ := ih (p.add i) i (wellFormed_add p i h)
    rw [addLoop]
    refine ⟨h1, h2, ?_, ?_, ?_⟩
    · rw [h3]; simp only [Pizza.add]; rw [quantityOf_bump_self _ _ h.1]; omega
    · rw [h4]; exact otherEntries_bump _ _
    · intro j hj; rw [h5 j hj]; exact findEntry_bump_other _ _ _ hj

theorem getIngredientsList_eq_join (p : Pizza) :
    p.getIngredientsList = String.join (p.ingredients.map entryText) := by
  unfold Pizza.getIngredientsList String.join
  rw [List.foldl_map]
  rfl

theorem nodup_of_ascending (m : IngredientMap) (h : StrictlyAscending m) :
    (m.map fun e => e.1.cost).Nodup := by
  unfold StrictlyAscending at h
  unfold List.Nodup
  rw [List.pairwise_map]
  exact h.imp (fun hlt => Nat.ne_of_lt hlt)

/-! ## Cost, sizes, totals -/

theorem toInt_range (x : Nat) : -(2 ^ 31 : Int) ≤ toInt x ∧ toInt x < 2 ^ 31 := by
  unfold toInt
  norm_num
  split <;> omega

theorem mulToSizeT_lt (p : Pizza) (x c : Nat)
    (h : mulToSizeT p.getCostMultiplier (toInt x) = some c) : c < 2 ^ 32 := by
  obtain ⟨hlo, hhi⟩ := toInt_range x
  unfold mulToSizeT at h
  by_cases h0 : 0 ≤ toInt x
  · obtain ⟨S, hS⟩ := Int.eq_ofNat_of_zero_le h0
    rw [hS] at h hhi
    have hS31 : S < 2 ^ 31 := by exact_mod_cast hhi
    simp only [Int.natAbs_ofNat, Int.ofNat_nonneg, if_true] at h
    unfold Pizza.getCostMultiplier at h
    revert h
    cases p.variant
    · intro h
      simp only [vegan_mul S hS31] at h
      split at h
      · cases h; norm_num at hS31 ⊢; omega
      · cases h
    · intro h
      simp only [hawaiian_mul S hS31] at h
      split at h
      · cases h; norm_num at hS31 ⊢; omega
      · cases h
    · intro h
      simp only [pepperoni_mul S hS31] at h
      split at h
      · cases h; norm_num at hS31 ⊢; omega
      · cases h
  · simp only [if_neg h0] at h
    split at h
    · cases h; decide
    · cases h

/-- The final sum of `getCost` never wraps. -/
theorem getCost_eq_map (p : Pizza) :
    p.getCost = (mulToSizeT p.getCostMultiplier (toInt (weightedSum p.ingredients))).map
      fun c => p.getBaseCost * (p.size.toNat + 1) + c := by
  unfold Pizza.getCost
  rw [foldl_reduceStep_zero]
  cases h : mulToSizeT p.getCostMultiplier (toInt (weightedSum p.ingredients)) with
  | none => rfl
  | some c =>
    have hc := mulToSizeT_lt p _ c h
    have hs : p.size.toNat ≤ 3 := by cases p.size <;> decide
    have hb : p.getBaseCost ≤ 480 := by unfold Pizza.getBaseCost; cases p.variant <;> decide
    have hm : p.getBaseCost * (p.size.toNat + 1) ≤ 480 * 4 := Nat.mul_le_mul hb (by omega)
    simp only [Option.map_some', Option.some.injEq]
    apply Nat.mod_eq_of_lt
    norm_num at hc ⊢
    omega

theorem totalLoop_acc (l : List Pizza) : ∀ t : Nat,
    totalLoop t l = (totalLoop 0 l).map fun total => t + total := by
  induction l with
  | nil => intro t; rfl
  | cons p rest ih =>
    intro t
    unfold totalLoop
    cases p.getCost with
    | none => rfl
    | some c =>
      simp only []
      rw [ih (t + c), ih (0 + c), Option.map_map]
      congr 1
      funext x
      simp only [Function.comp]
      omega

theorem totalLoop_append (l : List Pizza) (p : Pizza) : ∀ t : Nat,
    totalLoop t (l ++ [p]) = (totalLoop t l).bind fun total => p.getCost.map fun c => total + c := by
  induction l with
  | nil =>
    intro t
    simp only [List.nil_append, totalLoop]
    cases p.getCost <;> rfl
  | cons q rest ih =>
    intro t
    simp only [List.cons_append, totalLoop]
    cases q.getCost with
    | none => rfl
    | some c => exact ih _

theorem totalLoop_sum (l : List Pizza) : ∀ (costs : List Nat) (t : Nat),
    l.map Pizza.getCost = costs.map some → totalLoop t l = some (t + costs.sum) := by
  induction l with
  | nil =>
    intro costs t h
    cases costs with
    | nil => rfl
    | cons c cs => simp at h
  | cons p rest ih =>
    intro costs t h
    cases costs with
    | nil => simp at h
    | cons c cs =>
      simp only [List.map_cons, List.cons.injEq] at h
      unfold totalLoop
      rw [h.1]
      simp only []
      rw [ih cs _ h.2, List.sum_cons, Nat.add_assoc]

theorem inputPizzaSize_spec (input : List Nat) : ∀ (s : Size) (rest : List Nat),
    inputPizzaSize input = some (s, rest) →
    ∃ skipped : List Nat, input = skipped ++ s.toNat :: rest ∧ (∀ c ∈ skipped, 3 < c) := by
  induction input with
  | nil => intro s rest h; simp [inputPizzaSize] at h
  | cons c cs ih =>
    intro s rest h
    unfold inputPizzaSize at h
    split at h
    · rename_i hc
      simp only [Size.toNat] at hc
      refine ⟨[], ?_, by simp⟩
      have hc3 : c = 0 ∨ c = 1 ∨ c = 2 ∨ c = 3 := by omega
      rcases hc3 with rfl | rfl | rfl | rfl <;>
        (simp only [Size.cast, Option.map_some', Option.some.injEq, Prod.mk.injEq] at h
         obtain ⟨rfl, rfl⟩ := h
         rfl)
    · rename_i hc
      simp only [Size.toNat] at hc
      obtain ⟨sk, h1, h2⟩ := ih s rest h
      refine ⟨c :: sk, by rw [h1]; rfl, ?_⟩
      intro x hx
      rcases List.mem_cons.1 hx with hx | hx
      · subst hx; omega
      · exact h2 x hx

theorem inputPizzaSize_returns (input : List Nat) :
    (∃ c ∈ input, c ≤ 3) → ∃ s rest, inputPizzaSize input = some (s, rest) := by
  induction input with
  | nil => rintro ⟨c, hc, _⟩; simp at hc
  | cons c cs ih =>
    rintro ⟨x, hx, hx3⟩
    unfold inputPizzaSize
    split
    · rename_i hc
      simp only [Size.toNat] at hc
      have hc3 : c = 0 ∨ c = 1 ∨ c = 2 ∨ c = 3 := by omega
      rcases hc3 with rfl | rfl | rfl | rfl <;> exact ⟨_, _, rfl⟩
    · rename_i hc
      simp only [Size.toNat] at hc
      rcases List.mem_cons.1 hx with h | h
      · subst h; omega
      · exact ih ⟨x, h, hx3⟩

/-! ## Properties of the specification -/

/-- The cost formula for sequences of `add` calls: for every variant, every
size and every finite sequence of `add` calls on a freshly constructed pizza
whose unit costs sum to `S < 2^31`, `getCost` returns
`baseCost * (sizeOrdinal + 1) + floor (costMultiplier * S)` with
`(baseCost, costMultiplier)` equal to `(350, 0.8)` for Vegan, `(450, 1.2)` for
Hawaiian and `(480, 1.5)` for Pepperoni. -/
theorem getCost_of_adds (s : Size) (adds : List Ingredient) (h : costSum adds < 2 ^ 31) :
    (adds.foldl Pizza.add (VeganPizza s)).getCost
        = some (350 * (s.toNat + 1) + ⌊(0.8 : ℚ) * (costSum adds : ℚ)⌋₊) ∧
    (adds.foldl Pizza.add (HawaiianPizza s)).getCost
        = some (450 * (s.toNat + 1) + ⌊(1.2 : ℚ) * (costSum adds : ℚ)⌋₊) ∧
    (adds.foldl Pizza.add (PepperoniPizza s)).getCost
        = some (480 * (s.toNat + 1) + ⌊(1.5 : ℚ) * (costSum adds : ℚ)⌋₊) := by
  have key : ∀ p : Pizza, p.ingredients = [] →
      (adds.foldl Pizza.add p).getCost
        = some (p.getBaseCost * (p.size.toNat + 1) + exactShare p.variant (costSum adds)) := by
    intro p hp
    obtain ⟨h1, h2, h3⟩ := foldl_add_fields adds p
    have hw : weightedSum (adds.foldl Pizza.add p).ingredients = costSum adds := by
      rw [h3, hp]; simp [weightedSum]
    rw [getCost_of_weightedSum_lt _ (by rw [hw]; exact h), hw, h1, h2]
    simp only [Pizza.getBaseCost, h1]
  rw [floor_vegan, floor_hawaiian, floor_pepperoni]
  exact ⟨key (VeganPizza s) rfl, key (HawaiianPizza s) rfl, key (PepperoniPizza s) rfl⟩

/-- C1, at the failing input: one `add` of an ingredient of unit cost `2^32`
on a fresh small Vegan pizza. The sum is stored in the `int` accumulator that
the literal `0` gives `std::reduce` and becomes 0, so `getCost` returns 350,
where `baseCost * (sizeOrdinal + 1) + floor (costMultiplier * S)` is
`350 * 1 + floor (0.8 * 2^32) = 3435974186`. -/
theorem getCost_of_adds_overflow :
    ((VeganPizza .small).add ⟨"Truffle", 4294967296⟩).getCost = some 350 ∧
    350 * (Size.small.toNat + 1)
      + ⌊(0.8 : ℚ) * (costSum [⟨"Truffle", 4294967296⟩] : ℚ)⌋₊ = 3435974186 := by
  refine ⟨by decide, ?_⟩
  rw [floor_vegan]
  decide

/-- C2: the three worked scenarios, built through the matching builder:
Vegan medium with Salt(5) x2 and Pepper(3) x1 costs 710, Pepperoni xlarge
without ingredients costs 1920, Hawaiian small with Pepper(3) x4 costs 464. -/
theorem worked_scenarios :
    (((VeganBuilder .medium).withTimes ⟨"Salt", 5⟩ 2).withTimes ⟨"Pepper", 3⟩ 1).getProduct.getCost
      = some 710 ∧
    (PepperoniBuilder .xlarge).getProduct.getCost = some 1920 ∧
    ((HawaiianBuilder .small).withTimes ⟨"Pepper", 3⟩ 4).getProduct.getCost = some 464 := by
  refine ⟨by decide, by decide, by decide⟩

/-- C3 (amended): quantity counting identifies ingredients by cost alone: for
all ingredients `a` and `b`, `add(a)` and then `add(b)` on a fresh pizza yields
the single entry `a` with quantity 2 if `a` and `b` have the same cost
(whatever their names), and two separate entries of quantity 1 each, in
ascending order of cost, otherwise. -/
theorem add_twice_fresh (v : Variant) (s : Size) (a b : Ingredient) :
    (((Pizza.fresh v s).add a).add b).ingredients =
      if a.cost = b.cost then [(a, 2)]
      else if a.cost < b.cost then [(a, 1), (b, 1)]
      else [(b, 1), (a, 1)] := by
  have h0 : (Pizza.fresh v s).ingredients = [] := by cases v <;> rfl
  simp only [Pizza.add, h0, bump, Ingredient.lt]
  by_cases h1 : a.cost < b.cost
  · simp [h1, Nat.ne_of_lt h1]
  · by_cases h2 : b.cost < a.cost
    · have : a.cost ≠ b.cost := by omega
      simp [h1, h2, this]
    · have : a.cost = b.cost := by omega
      simp [h1, h2, this]

/-- C3 as stated fails: Salt(5) and Sugar(5) differ in name, yet adding both to
a fresh pizza leaves the single entry Salt with quantity 2. -/
theorem add_twice_equal_cost_merges :
    ¬ ((⟨"Salt", 5⟩ : Ingredient).name = (⟨"Sugar", 5⟩ : Ingredient).name ∧
        (⟨"Salt", 5⟩ : Ingredient).cost = (⟨"Sugar", 5⟩ : Ingredient).cost) ∧
    (((VeganPizza .small).add ⟨"Salt", 5⟩).add ⟨"Sugar", 5⟩).ingredients
      = [(⟨"Salt", 5⟩, 2)] := by
  decide

/-- C4 (amended): in every pizza state reached by calls on a fresh pizza,
`add(i)` raises by exactly 1 the quantity of the entry the map holds for the
cost of `i` (the map has one entry per cost, keyed by the ingredient first
added at that cost), creating the entry `(i, 1)` if there is none, and leaves
every entry of another cost, the size and the variant unchanged; two `add(i)`
calls on a pizza without an entry of the cost of `i` yield the one entry
`(i, 2)`, the map growing by one entry. -/
theorem add_increments (v : Variant) (s : Size) (calls : List Call) (i : Ingredient) :
    quantityOf ((reach v s calls).add i).ingredients i
      = quantityOf (reach v s calls).ingredients i + 1 ∧
    (findEntry ((reach v s calls).add i).ingredients i =
      match findEntry (reach v s calls).ingredients i with
      | some e => some (e.1, e.2 + 1)
      | none => some (i, 1)) ∧
    otherEntries ((reach v s calls).add i).ingredients i
      = otherEntries (reach v s calls).ingredients i ∧
    (∀ j : Ingredient, j.cost ≠ i.cost →
      findEntry ((reach v s calls).add i).ingredients j
        = findEntry (reach v s calls).ingredients j) ∧
    ((reach v s calls).add i).size = (reach v s calls).size ∧
    ((reach v s calls).add i).variant = (reach v s calls).variant ∧
    (findEntry (reach v s calls).ingredients i = none →
      findEntry (((reach v s calls).add i).add i).ingredients i = some (i, 2) ∧
      (((reach v s calls).add i).add i).ingredients.length
        = (reach v s calls).ingredients.length + 1) := by
  have hw := wellFormed_reach v s calls
  generalize reach v s calls = p at hw
  have hw1 := wellFormed_add p i hw
  refine ⟨quantityOf_bump_self _ _ hw.1, findEntry_bump_self _ _ hw.1, otherEntries_bump _ _,
    fun j hj => findEntry_bump_other _ _ _ hj, rfl, rfl, ?_⟩
  intro hn
  have e1 : findEntry (p.add i).ingredients i = some (i, 1) := by
    have := findEntry_bump_self _ i hw.1
    rw [hn] at this; exact this
  constructor
  · have := findEntry_bump_self _ i hw1.1
    rw [e1] at this; exact this
  · have l1 := length_bump _ i hw.1
    have l2 := length_bump _ i hw1.1
    rw [hn] at l1
    rw [e1] at l2
    simp only [Pizza.add] at l1 l2 ⊢
    rw [l2, l1]; simp

/-- C4 as stated fails: on the pizza reached by `add(Salt(5))`, `add(Sugar(5))`
stores no quantity for Sugar (none before, none after) and raises the entry
of Salt from 1 to 2. -/
theorem add_same_cost_other_name :
    (reach .vegan .small [.add ⟨"Salt", 5⟩]).ingredients = [(⟨"Salt", 5⟩, 1)] ∧
    ((reach .vegan .small [.add ⟨"Salt", 5⟩]).add ⟨"Sugar", 5⟩).ingredients
      = [(⟨"Salt", 5⟩, 2)] ∧
    quantityByValue (reach .vegan .small [.add ⟨"Salt", 5⟩]).ingredients ⟨"Sugar", 5⟩ = 0 ∧
    quantityByValue ((reach .vegan .small [.add ⟨"Salt", 5⟩]).add ⟨"Sugar", 5⟩).ingredients
      ⟨"Sugar", 5⟩ = 0 ∧
    quantityByValue (reach .vegan .small [.add ⟨"Salt", 5⟩]).ingredients ⟨"Salt", 5⟩ = 1 ∧
    quantityByValue ((reach .vegan .small [.add ⟨"Salt", 5⟩]).add ⟨"Sugar", 5⟩).ingredients
      ⟨"Salt", 5⟩ = 2 := by
  decide

/-- C5 (amended): for each of the three builders, in every reachable state,
`with(i, n)` leaves the product as `n` successive `add(i)` calls do: the
quantity of the entry the map holds for the cost of `i` grows by exactly `n`,
every entry of another cost and the size are unchanged; `with(i, 0)` changes
nothing, and `with(i)` equals `with(i, 1)`. -/
theorem withTimes_effect (v : Variant) (s : Size) (calls : List Call) (i : Ingredient) (n : Nat) :
    ((calls.foldl Call.apply (builderFor v s)).withTimes i n).getProduct
      = (List.replicate n i).foldl Pizza.add (calls.foldl Call.apply (builderFor v s)).getProduct ∧
    ((calls.foldl Call.apply (builderFor v s)).withTimes i n).kind
      = (calls.foldl Call.apply (builderFor v s)).kind ∧
    quantityOf ((calls.foldl Call.apply (builderFor v s)).withTimes i n).getProduct.ingredients i
      = quantityOf (calls.foldl Call.apply (builderFor v s)).getProduct.ingredients i + n ∧
    otherEntries ((calls.foldl Call.apply (builderFor v s)).withTimes i n).getProduct.ingredients i
      = otherEntries (calls.foldl Call.apply (builderFor v s)).getProduct.ingredients i ∧
    (∀ j : Ingredient, j.cost ≠ i.cost →
      findEntry ((calls.foldl Call.apply (builderFor v s)).withTimes i n).getProduct.ingredients j
        = findEntry (calls.foldl Call.apply (builderFor v s)).getProduct.ingredients j) ∧
    ((calls.foldl Call.apply (builderFor v s)).withTimes i n).getProduct.size
      = (calls.foldl Call.apply (builderFor v s)).getProduct.size ∧
    (calls.foldl Call.apply (builderFor v s)).withTimes i 0
      = calls.foldl Call.apply (builderFor v s) ∧
    (calls.foldl Call.apply (builderFor v s)).withOnce i
      = (calls.foldl Call.apply (builderFor v s)).withTimes i 1 := by
  have hw : WellFormed (calls.foldl Call.apply (builderFor v s)).product := wellFormed_reach v s calls
  generalize calls.foldl Call.apply (builderFor v s) = b at hw
  obtain ⟨_, h2, h3, h4, h5⟩ := addLoop_fields n b.product i hw
  simp only [withTimes_product, PizzaBuilder.getProduct]
  exact ⟨addLoop_eq_foldl n _ _, trivial, h3, h4, h5, h2, rfl, (withOnce_eq b i).trans (withTimes_product b i 1)⟩

/-- C5 as stated fails: on the Vegan builder after `with(Salt(5), 1)`,
`with(Sugar(5), 3)` stores no quantity for Sugar and raises the entry of Salt
from 1 to 4. -/
theorem withTimes_same_cost_other_name :
    ((VeganBuilder .small).withTimes ⟨"Salt", 5⟩ 1).getProduct.ingredients
      = [(⟨"Salt", 5⟩, 1)] ∧
    (((VeganBuilder .small).withTimes ⟨"Salt", 5⟩ 1).withTimes
        ⟨"Sugar", 5⟩ 3).getProduct.ingredients = [(⟨"Salt", 5⟩, 4)] ∧
    quantityByValue (((VeganBuilder .small).withTimes ⟨"Salt", 5⟩ 1).withTimes
        ⟨"Sugar", 5⟩ 3).getProduct.ingredients ⟨"Sugar", 5⟩ = 0 ∧
    quantityByValue (((VeganBuilder .small).withTimes ⟨"Salt", 5⟩ 1).withTimes
        ⟨"Sugar", 5⟩ 3).getProduct.ingredients ⟨"Salt", 5⟩ = 4 := by
  decide

/-- C6 (amended): for a non-empty pizza list the order total `printTotal`
computes and writes is the sum of `getCost` over all recorded pizzas: 1600 for
a Vegan medium (700) and a Hawaiian medium (900) pizza, and appending a pizza
`p` raises the total by exactly `getCost p`; for an empty list `printTotal`
writes no total. -/
theorem order_total :
    (∀ o : Order, o.pizzaListing = [] → o.printTotal = some []) ∧
    (∀ (o : Order) (costs : List Nat), o.pizzaListing ≠ [] →
      o.pizzaListing.map Pizza.getCost = costs.map some → o.printTotal = some [costs.sum]) ∧
    (∀ (l : List Pizza) (costs : List Nat),
      l.map Pizza.getCost = costs.map some → totalLoop 0 l = some costs.sum) ∧
    ((VeganPizza .medium).getCost = some 700 ∧ (HawaiianPizza .medium).getCost = some 900 ∧
      totalLoop 0 [VeganPizza .medium, HawaiianPizza .medium] = some 1600 ∧
      (⟨Order.new.availableIngredients, [VeganPizza .medium, HawaiianPizza .medium]⟩ :
        Order).printTotal = some [1600]) ∧
    (∀ (l : List Pizza) (p : Pizza),
      totalLoop 0 (l ++ [p]) = (totalLoop 0 l).bind fun total => p.getCost.map fun c => total + c) ∧
    (∀ (catalog : List Ingredient) (l : List Pizza) (p : Pizza),
      (⟨catalog, l ++ [p]⟩ : Order).printTotal
        = (totalLoop 0 l).bind fun total => p.getCost.map fun c => [total + c]) ∧
    (∀ o : Order, o.pizzaListing ≠ [] →
      o.printTotal = (totalLoop 0 o.pizzaListing).map fun total => [total]) := by
  have hne : ∀ o : Order, o.pizzaListing ≠ [] →
      o.printTotal = (totalLoop 0 o.pizzaListing).map fun total => [total] := by
    intro o ho
    unfold Order.printTotal
    cases hl : o.pizzaListing with
    | nil => exact absurd hl ho
    | cons p rest => rfl
  have hsum : ∀ (l : List Pizza) (costs : List Nat),
      l.map Pizza.getCost = costs.map some → totalLoop 0 l = some costs.sum := by
    intro l costs h
    have := totalLoop_sum l costs 0 h
    rwa [Nat.zero_add] at this
  refine ⟨?_, ?_, hsum, ⟨by decide, by decide, by decide, by decide⟩,
    fun l p => totalLoop_append l p 0, ?_, hne⟩
  · intro o ho
    unfold Order.printTotal
    rw [ho]; rfl
  · intro o costs ho h
    rw [hne o ho, hsum _ costs h]; rfl
  · intro catalog l p
    rw [hne ⟨catalog, l ++ [p]⟩ (by simp)]
    show Option.map _ (totalLoop 0 (l ++ [p])) = _
    rw [totalLoop_append]
    cases totalLoop 0 l with
    | none => rfl
    | some t => cases p.getCost <;> rfl

/-- C6 as stated fails: a new Order has no pizzas, and `printTotal` writes no
total for it, not the total 0. -/
theorem printTotal_empty_order :
    Order.new.pizzaListing = [] ∧ Order.new.printTotal = some [] ∧
    Order.new.printTotal ≠ some [0] := by
  decide

/-- The step of `getCost` in the size: for every variant and composition,
`getCost` at a size `s2` is `getCost` at a size `s1 <= s2` plus `baseCost` per
size step wherever it is defined, and it is defined below `2^31` of weighted
ingredient cost. -/
theorem getCost_mono_size (v : Variant) (m : IngredientMap) (s1 s2 : Size)
    (h : s1.toNat ≤ s2.toNat) :
    (⟨v, s2, m⟩ : Pizza).getCost = ((⟨v, s1, m⟩ : Pizza).getCost).map
      (fun c => c + (⟨v, s1, m⟩ : Pizza).getBaseCost * (s2.toNat - s1.toNat)) ∧
    (∀ c1 c2 : Nat, (⟨v, s1, m⟩ : Pizza).getCost = some c1 →
      (⟨v, s2, m⟩ : Pizza).getCost = some c2 → c1 ≤ c2) ∧
    (weightedSum m < 2 ^ 31 → ∃ c1 c2 : Nat, (⟨v, s1, m⟩ : Pizza).getCost = some c1 ∧
      (⟨v, s2, m⟩ : Pizza).getCost = some c2 ∧ c1 ≤ c2) := by
  have key : (⟨v, s2, m⟩ : Pizza).getCost = ((⟨v, s1, m⟩ : Pizza).getCost).map
      (fun c => c + (⟨v, s1, m⟩ : Pizza).getBaseCost * (s2.toNat - s1.toNat)) := by
    rw [getCost_eq_map, getCost_eq_map, Option.map_map]
    have hd : (⟨v, s2, m⟩ : Pizza).getCostMultiplier = (⟨v, s1, m⟩ : Pizza).getCostMultiplier := rfl
    have hbase : (⟨v, s2, m⟩ : Pizza).getBaseCost = (⟨v, s1, m⟩ : Pizza).getBaseCost := rfl
    rw [hd, hbase]
    congr 1
    funext c
    simp only [Function.comp]
    obtain ⟨d, hd⟩ := Nat.exists_eq_add_of_le h
    rw [hd, Nat.add_sub_cancel_left]
    ring
  refine ⟨key, ?_, ?_⟩
  · intro c1 c2 h1 h2
    rw [key, h1] at h2
    simp only [Option.map_some', Option.some.injEq] at h2
    omega
  · intro hw
    have h1 := getCost_of_weightedSum_lt ⟨v, s1, m⟩ hw
    rw [key, h1]
    exact ⟨_, _, rfl, rfl, Nat.le_add_right _ _⟩

/-- C8: in every pizza state reached from a freshly constructed pizza by any
sequence of `add` and builder `with` calls, every entry of the composition
map has quantity at least 1. -/
theorem quantity_pos (v : Variant) (s : Size) (calls : List Call) :
    ∀ e ∈ (reach v s calls).ingredients, 1 ≤ e.2 :=
  (wellFormed_reach v s calls).2

/-- Witness of C8: the entry Salt x2 after `add`, `with(Pepper, 0)` and
`with(Salt)`. -/
theorem quantity_pos_witness :
    ((⟨"Salt", 5⟩, 2) : Ingredient × Nat) ∈
        (reach .vegan .small [.add ⟨"Salt", 5⟩, .withTimes ⟨"Pepper", 3⟩ 0,
          .withOnce ⟨"Salt", 5⟩]).ingredients ∧ 1 ≤ 2 :=
  ⟨by decide, quantity_pos .vegan .small [.add ⟨"Salt", 5⟩, .withTimes ⟨"Pepper", 3⟩ 0,
    .withOnce ⟨"Salt", 5⟩] (⟨"Salt", 5⟩, 2) (by decide)⟩

/-- C9: `getSize` maps small, medium, large, xlarge (0..3) to "SM", "MD", "LG",
"XL"; the "UNKNOWN" branch is taken exactly for values above 3, so for no
pizza; `inputPizzaSize` skips every value above 3 and returns the first value
in 0..3 (it returns whenever there is one), so no pizza created with its
result yields "UNKNOWN". -/
theorem getSize_never_unknown :
    (∀ (v : Variant) (m : IngredientMap),
      (⟨v, .small, m⟩ : Pizza).getSize = "SM" ∧ (⟨v, .medium, m⟩ : Pizza).getSize = "MD" ∧
      (⟨v, .large, m⟩ : Pizza).getSize = "LG" ∧ (⟨v, .xlarge, m⟩ : Pizza).getSize = "XL") ∧
    (Size.small.toNat = 0 ∧ Size.medium.toNat = 1 ∧ Size.large.toNat = 2 ∧ Size.xlarge.toNat = 3) ∧
    (∀ n : Nat, sizeLabel n = "UNKNOWN" ↔ 3 < n) ∧
    (∀ p : Pizza, p.getSize ≠ "UNKNOWN") ∧
    (∀ (input : List Nat) (s : Size) (rest : List Nat), inputPizzaSize input = some (s, rest) →
      s.toNat ≤ 3 ∧
      (∃ skipped : List Nat, input = skipped ++ s.toNat :: rest ∧ ∀ c ∈ skipped, 3 < c) ∧
      ∀ (v : Variant) (calls : List Call), (reach v s calls).getSize ≠ "UNKNOWN") ∧
    (∀ input : List Nat, (∃ c ∈ input, c ≤ 3) → ∃ s rest, inputPizzaSize input = some (s, rest)) := by
  have hlabel : ∀ n : Nat, sizeLabel n = "UNKNOWN" ↔ 3 < n := by
    intro n
    match n with
    | 0 => decide
    | 1 => decide
    | 2 => decide
    | 3 => decide
    | n + 4 => simp [sizeLabel]
  have hsz : ∀ s : Size, s.toNat ≤ 3 := by intro s; cases s <;> decide
  have hp : ∀ p : Pizza, p.getSize ≠ "UNKNOWN" := by
    intro p hpu
    have := (hlabel _).1 hpu
    have := hsz p.size
    omega
  refine ⟨fun v m => ⟨rfl, rfl, rfl, rfl⟩, ⟨rfl, rfl, rfl, rfl⟩, hlabel, hp, ?_, inputPizzaSize_returns⟩
  intro input s rest h
  exact ⟨hsz s, inputPizzaSize_spec input s rest h, fun v calls => hp _⟩

/-- C10: for every reachable pizza, `getIngredientsList` is the concatenation,
over the stored entries in map order, of name, ": ", the decimal quantity and
" / "; the entries come in strictly ascending order of unit cost whatever the
order of the calls, no ingredient is listed twice, and the list of a pizza
without ingredients is the empty string. -/
theorem getIngredientsList_ascending (v : Variant) (s : Size) (calls : List Call) :
    (reach v s calls).getIngredientsList
      = String.join ((reach v s calls).ingredients.map
          fun e => e.1.name ++ ": " ++ Nat.repr e.2 ++ " / ") ∧
    (reach v s calls).ingredients.Pairwise (fun e e' => e.1.cost < e'.1.cost) ∧
    ((reach v s calls).ingredients.map fun e => e.1).Nodup ∧
    (reach v s []).getIngredientsList = "" := by
  have hw := wellFormed_reach v s calls
  refine ⟨getIngredientsList_eq_join _, hw.1, ?_, ?_⟩
  · have := nodup_of_ascending _ hw.1
    have h2 : ((reach v s calls).ingredients.map fun e => e.1.cost)
        = ((reach v s calls).ingredients.map fun e => e.1).map Ingredient.cost := by
      rw [List.map_map]; rfl
    rw [h2] at this
    exact List.Nodup.of_map _ this
  · cases v <;> rfl

/-! ## Descriptions, merged keys and price changes -/

theorem append_right_ne (x y t : String) (h : x ≠ y) : x ++ t ≠ y ++ t := by
  intro he
  apply h
  have := congrArg String.data he
  simp only [String.data_append] at this
  exact String.ext (List.append_cancel_right this)

theorem getCost_congr (p q : Pizza) (hv : p.variant = q.variant) (hs : p.size = q.size)
    (hw : weightedSum p.ingredients = weightedSum q.ingredients) : p.getCost = q.getCost := by
  rw [getCost_eq_map, getCost_eq_map]
  unfold Pizza.getCostMultiplier Pizza.getBaseCost
  rw [hv, hs, hw]

theorem floor_decimal (v : Variant) (S : Nat) :
    ⌊decimalMultiplier v * (S : ℚ)⌋₊ = exactShare v S := by
  cases v
  · exact floor_vegan S
  · exact floor_hawaiian S
  · exact floor_pepperoni S

theorem le_ceil_decimal (v : Variant) (x d : Nat)
    (h : match v with
      | .vegan => 5 * d < 4 * x + 5
      | .hawaiian => 5 * d < 6 * x + 5
      | .pepperoni => 2 * d < 3 * x + 2) :
    d ≤ ⌈decimalMultiplier v * (x : ℚ)⌉₊ := by
  by_contra hcon
  have h1 : ⌈decimalMultiplier v * (x : ℚ)⌉₊ ≤ d - 1 := by omega
  have hd : 1 ≤ d := by omega
  rw [Nat.ceil_le] at h1
  have h2 : ((d - 1 : ℕ) : ℚ) = (d : ℚ) - 1 := by
    rw [Nat.cast_sub hd]; simp
  rw [h2] at h1
  cases v
  · simp only [decimalMultiplier] at h1
    have : (4 : ℚ) * x + 5 ≤ 5 * d := by norm_num at h1; linarith
    have h3 : 4 * x + 5 ≤ 5 * d := by exact_mod_cast this
    simp only at h
    omega
  · simp only [decimalMultiplier] at h1
    have : (6 : ℚ) * x + 5 ≤ 5 * d := by norm_num at h1; linarith
    have h3 : 6 * x + 5 ≤ 5 * d := by exact_mod_cast this
    simp only at h
    omega
  · simp only [decimalMultiplier] at h1
    have : (3 : ℚ) * x + 2 ≤ 2 * d := by norm_num at h1; linarith
    have h3 : 3 * x + 2 ≤ 2 * d := by exact_mod_cast this
    simp only at h
    omega

theorem weightedSum_take_le (m : IngredientMap) : ∀ n : Nat,
    weightedSum (m.take n) ≤ weightedSum m := by
  induction m with
  | nil => intro n; simp [weightedSum]
  | cons e rest ih =>
    intro n
    cases n with
    | zero => simp [weightedSum]
    | succ n =>
      have := ih n
      simp only [weightedSum, List.take_succ_cons, List.map_cons, List.sum_cons] at this ⊢
      omega

/-! ## The order step -/

theorem addLoop_head (n : Nat) : ∀ (v : Variant) (s : Size) (i : Ingredient) (q : Nat)
    (rest : IngredientMap),
    addLoop n ⟨v, s, (i, q) :: rest⟩ i = ⟨v, s, (i, q + n) :: rest⟩ := by
  induction n with
  | zero => intro v s i q rest; rfl
  | succ n ih =>
    intro v s i q rest
    have hb : bump ((i, q) :: rest) i = (i, q + 1) :: rest := by
      simp [bump, Ingredient.lt]
    rw [addLoop, Pizza.add]
    simp only [hb]
    rw [ih, Nat.add_assoc, Nat.add_comm 1 n]

theorem addLoop_nil (n : Nat) (v : Variant) (s : Size) (i : Ingredient) :
    addLoop (n + 1) ⟨v, s, []⟩ i = ⟨v, s, [(i, n + 1)]⟩ := by
  rw [addLoop, Pizza.add]
  simp only [bump]
  rw [addLoop_head, Nat.add_comm]

theorem addLoop_front (n : Nat) (v : Variant) (s : Size) (i k : Ingredient) (q : Nat)
    (rest : IngredientMap) (h : i.cost < k.cost) :
    addLoop (n + 1) ⟨v, s, (k, q) :: rest⟩ i = ⟨v, s, (i, n + 1) :: (k, q) :: rest⟩ := by
  have hb : bump ((k, q) :: rest) i = (i, 0 + 1) :: (k, q) :: rest := by
    have h1 : ¬ k.cost < i.cost := by omega
    simp [bump, Ingredient.lt, h, h1]
  rw [addLoop, Pizza.add]
  simp only [hb]
  rw [addLoop_head, Nat.add_comm]

theorem withChoices_choiceMap (v : Variant) (s : Size) (a b : Nat) :
    withChoices [⟨"Salt", 5⟩, ⟨"Pepper", 3⟩] (builderFor v s) (choiceMap a b)
      = some ⟨v, ⟨v, s, (if 0 < b then [(⟨"Pepper", 3⟩, b)] else [])
          ++ (if 0 < a then [(⟨"Salt", 5⟩, a)] else [])⟩⟩ := by
  have hb : builderFor v s = ⟨v, ⟨v, s, []⟩⟩ := by cases v <;> rfl
  rw [hb]
  cases a with
  | zero =>
    cases b with
    | zero => rfl
    | succ b =>
      simp only [choiceMap, Nat.lt_irrefl, if_false, Nat.zero_lt_succ, if_true, List.nil_append,
        withChoices, List.getElem?_cons_succ, List.getElem?_cons_zero, withTimes_product,
        addLoop_nil, List.append_nil]
  | succ a =>
    cases b with
    | zero =>
      simp only [choiceMap, Nat.lt_irrefl, if_false, Nat.zero_lt_succ, if_true, List.append_nil,
        withChoices, List.getElem?_cons_zero, withTimes_product,
        addLoop_nil, List.nil_append]
    | succ b =>
      simp only [choiceMap, Nat.zero_lt_succ, if_true, List.cons_append, List.nil_append,
        withChoices, List.getElem?_cons_succ, List.getElem?_cons_zero, withTimes_product,
        addLoop_nil]
      rw [addLoop_front _ _ _ _ _ _ _ (by decide)]

theorem weightedSum_composition (a b : Nat) :
    weightedSum ((if 0 < b then [((⟨"Pepper", 3⟩ : Ingredient), b)] else [])
      ++ (if 0 < a then [((⟨"Salt", 5⟩ : Ingredient), a)] else [])) = 5 * a + 3 * b := by
  by_cases ha : 0 < a <;> by_cases hb : 0 < b <;> simp [weightedSum, ha, hb] <;> omega

theorem order_step_variant (v : Variant) (o : Order) (s : Size) (a b : Nat)
    (hcat : o.availableIngredients = [⟨"Salt", 5⟩, ⟨"Pepper", 3⟩]) :
    (withChoices o.availableIngredients (builderFor v s) (choiceMap a b)).map
        (fun builder => ({ o with pizzaListing := o.pizzaListing.concat builder.getProduct } : Order))
      = some ⟨o.availableIngredients, o.pizzaListing ++ [⟨v, s,
          (if 0 < b then [(⟨"Pepper", 3⟩, b)] else [])
            ++ (if 0 < a then [(⟨"Salt", 5⟩, a)] else [])⟩]⟩ := by
  rw [hcat, withChoices_choiceMap]
  simp [PizzaBuilder.getProduct, List.concat_eq_append]

/-! ## The ingredients dialog -/

theorem mem_bumpChoice (m : IngredientsChoice) (k : Nat) (x : Nat × Nat) :
    x ∈ bumpChoice m k → x ∈ m ∨ (x.1 = k ∧ 1 ≤ x.2) := by
  induction m with
  | nil =>
    intro h
    simp only [bumpChoice, List.mem_singleton] at h
    subst h; right; simp
  | cons e rest ih =>
    obtain ⟨k', q⟩ := e
    unfold bumpChoice
    split
    · intro h
      rcases List.mem_cons.1 h with h | h
      · left; rw [h]; exact List.mem_cons_self _ _
      · rcases ih h with h | h
        · left; exact List.mem_cons_of_mem _ h
        · right; exact h
    · split
      · intro h
        rcases List.mem_cons.1 h with h | h
        · right; subst h; simp
        · left; exact h
      · rename_i h1 h2
        intro h
        rcases List.mem_cons.1 h with h | h
        · right; subst h; simp; omega
        · left; exact List.mem_cons_of_mem _ h

theorem bumpChoice_sorted (m : IngredientsChoice) (k : Nat)
    (h : m.Pairwise fun e e' => e.1 < e'.1) :
    (bumpChoice m k).Pairwise fun e e' => e.1 < e'.1 := by
  induction m with
  | nil => simp [bumpChoice]
  | cons e rest ih =>
    obtain ⟨k', q⟩ := e
    rw [List.pairwise_cons] at h
    unfold bumpChoice
    split
    · rename_i h1
      rw [List.pairwise_cons]
      refine ⟨?_, ih h.2⟩
      intro x hx
      rcases mem_bumpChoice _ _ _ hx with hx | hx
      · exact h.1 x hx
      · show k' < x.1
        omega
    · split
      · rename_i h1 h2
        rw [List.pairwise_cons, List.pairwise_cons]
        refine ⟨?_, h⟩
        intro x hx
        rcases List.mem_cons.1 hx with hx | hx
        · subst hx; exact h2
        · exact lt_trans h2 (h.1 x hx)
      · rw [List.pairwise_cons]
        exact ⟨fun x hx => h.1 x hx, h.2⟩

theorem chosen_bumpChoice (m : IngredientsChoice) (k j : Nat) :
    chosen (bumpChoice m k) j = chosen m j + if j = k then 1 else 0 := by
  induction m with
  | nil =>
    by_cases hj : j = k
    · subst hj; simp [bumpChoice, chosen]
    · have : ¬ k = j := fun h => hj h.symm
      simp [bumpChoice, chosen, hj, this]
  | cons e rest ih =>
    obtain ⟨k', q⟩ := e
    unfold bumpChoice
    split
    · simp only [chosen, List.filter_cons] at ih ⊢
      split
      · simp only [List.map_cons, List.sum_cons]; omega
      · exact ih
    · split
      · by_cases hj : j = k
        · subst hj; simp [chosen, List.filter_cons]; omega
        · have : ¬ k = j := fun h => hj h.symm
          simp [chosen, List.filter_cons, hj, this]
      · rename_i h1 h2
        have hk : k' = k := by omega
        subst hk
        by_cases hj : j = k'
        · subst hj; simp [chosen, List.filter_cons]; omega
        · have : ¬ k' = j := fun h => hj h.symm
          simp [chosen, List.filter_cons, hj, this]

theorem chosen_of_mem (m : IngredientsChoice) (h : m.Pairwise fun e e' => e.1 < e'.1) :
    ∀ e ∈ m, chosen m e.1 = e.2 := by
  induction m with
  | nil => intro e he; simp at he
  | cons x rest ih =>
    rw [List.pairwise_cons] at h
    have hrest : ∀ j : Nat, (∀ y ∈ rest, j ≠ y.1) → chosen rest j = 0 := by
      intro j hj
      unfold chosen
      have : rest.filter (fun e => e.1 == j) = [] := by
        rw [List.filter_eq_nil_iff]
        intro y hy
        simp only [beq_iff_eq]
        exact fun hc => hj y hy hc.symm
      rw [this]; rfl
    intro e he
    rcases List.mem_cons.1 he with he | he
    · subst he
      have := hrest e.1 (fun y hy => Nat.ne_of_lt (h.1 y hy))
      simp only [chosen, List.filter_cons, beq_self_eq_true, if_true, List.map_cons,
        List.sum_cons] at this ⊢
      omega
    · have h1 := h.1 e he
      have h2 := ih h.2 e he
      have hne : ¬ x.1 = e.1 := by omega
      simp only [chosen, List.filter_cons, beq_iff_eq, hne, if_false] at h2 ⊢
      exact h2

theorem mem_of_chosen_pos (m : IngredientsChoice) (k : Nat) (h : 0 < chosen m k) :
    ∃ q, (k, q) ∈ m := by
  induction m with
  | nil => simp [chosen] at h
  | cons x rest ih =>
    by_cases hx : x.1 = k
    · exact ⟨x.2, by rw [← hx]; exact List.mem_cons_self _ _⟩
    · simp only [chosen, List.filter_cons, beq_iff_eq, hx, if_false] at h
      obtain ⟨q, hq⟩ := ih h
      exact ⟨q, List.mem_cons_of_mem _ hq⟩

theorem inputIngredientsLoop_spec (cat : List Ingredient) (input : List Int) :
    ∀ acc : IngredientsChoice, (-1 : Int) ∈ input →
    ∃ (choice : IngredientsChoice) (pre rest : List Int),
      inputIngredientsLoop cat acc input = some (choice, rest) ∧
      input = pre ++ (-1) :: rest ∧ (-1 : Int) ∉ pre ∧
      (∀ j : Nat, chosen choice j
        = chosen acc j + if j < cat.length then pre.count (j : Int) else 0) ∧
      ((acc.Pairwise fun e e' => e.1 < e'.1) → choice.Pairwise fun e e' => e.1 < e'.1) ∧
      ((∀ e ∈ acc, e.1 < cat.length ∧ 1 ≤ e.2) → ∀ e ∈ choice, e.1 < cat.length ∧ 1 ≤ e.2) := by
  induction input with
  | nil => intro acc h; simp at h
  | cons c cs ih =>
    intro acc h
    unfold inputIngredientsLoop
    split
    · rename_i hc
      have hc1 : c ≠ -1 := by omega
      have hmem : (-1 : Int) ∈ cs := by
        rcases List.mem_cons.1 h with h | h
        · exact absurd h.symm hc1
        · exact h
      obtain ⟨choice, pre, rest, h1, h2, h3, h4, h5, h6⟩ := ih (bumpChoice acc c.toNat) hmem
      refine ⟨choice, c :: pre, rest, h1, by rw [h2]; rfl, ?_, ?_, ?_, ?_⟩
      · intro hm
        rcases List.mem_cons.1 hm with hm | hm
        · exact hc1 hm.symm
        · exact h3 hm
      · intro j
        rw [h4 j, chosen_bumpChoice, List.count_cons]
        by_cases hj : j = c.toNat
        · have hcj : c = (j : Int) := by omega
          have hjl : j < cat.length := by omega
          subst hcj
          simp only [Int.toNat_ofNat, if_true, hjl, beq_self_eq_true]
          omega
        · have hcj : ¬ c = (j : Int) := by omega
          have hcj' : (c == (j : Int)) = false := by simpa using hcj
          simp only [hj, if_false, hcj', Nat.add_zero]
          split <;> simp
      · intro hs; exact h5 (bumpChoice_sorted _ _ hs)
      · intro hb
        apply h6
        intro e he
        rcases mem_bumpChoice _ _ _ he with he | he
        · exact hb e he
        · exact ⟨by omega, he.2⟩
    · rename_i hc
      split
      · rename_i hc1
        subst hc1
        exact ⟨acc, [], cs, rfl, rfl, by simp, by intro j; simp, id, id⟩
      · rename_i hc1
        have hmem : (-1 : Int) ∈ cs := by
          rcases List.mem_cons.1 h with h | h
          · exact absurd h.symm hc1
          · exact h
        obtain ⟨choice, pre, rest, h1, h2, h3, h4, h5, h6⟩ := ih acc hmem
        refine ⟨choice, c :: pre, rest, h1, by rw [h2]; rfl, ?_, ?_, h5, h6⟩
        · intro hm
          rcases List.mem_cons.1 hm with hm | hm
          · exact hc1 hm.symm
          · exact h3 hm
        · intro j
          rw [h4 j, List.count_cons]
          by_cases hjl : j < cat.length
          · have hcj : ¬ c = (j : Int) := by omega
            have hcj' : (c == (j : Int)) = false := by simpa using hcj
            simp [hjl, hcj']
          · simp [hjl]

theorem withChoices_isSome (cat : List Ingredient) (choice : IngredientsChoice) :
    ∀ b : PizzaBuilder, (∀ e ∈ choice, e.1 < cat.length) → (withChoices cat b choice).isSome := by
  induction choice with
  | nil => intro b _; rfl
  | cons e rest ih =>
    intro b h
    obtain ⟨key, quantity⟩ := e
    have hk : key < cat.length := h (key, quantity) (List.mem_cons_self _ _)
    unfold withChoices
    rw [List.getElem?_eq_getElem hk]
    exact ih _ (fun e he => h e (List.mem_cons_of_mem _ he))

theorem inputIngredientsLoop_filter (cat : List Ingredient) (input : List Int) :
    ∀ acc : IngredientsChoice,
    (inputIngredientsLoop cat acc
        (input.filter fun c => decide (c = -1 ∨ (0 ≤ c ∧ c.toNat < cat.length)))).map Prod.fst
      = (inputIngredientsLoop cat acc input).map Prod.fst := by
  induction input with
  | nil => intro acc; rfl
  | cons c cs ih =>
    intro acc
    by_cases hv : 0 ≤ c ∧ c.toNat < cat.length
    · have hd : decide (c = -1 ∨ (0 ≤ c ∧ c.toNat < cat.length)) = true := by simp [hv]
      rw [List.filter_cons, if_pos hd]
      unfold inputIngredientsLoop
      rw [if_pos hv, if_pos hv]
      exact ih _
    · by_cases h1 : c = -1
      · have hd : decide (c = -1 ∨ (0 ≤ c ∧ c.toNat < cat.length)) = true := by simp [h1]
        rw [List.filter_cons, if_pos hd]
        unfold inputIngredientsLoop
        rw [if_neg hv, if_neg hv, if_pos h1, if_pos h1]
        rfl
      · have hd : ¬ decide (c = -1 ∨ (0 ≤ c ∧ c.toNat < cat.length)) = true := by simp [h1, hv]
        rw [List.filter_cons, if_neg hd]
        conv => rhs; unfold inputIngredientsLoop
        rw [if_neg hv, if_neg h1]
        exact ih _

/-! ## Properties of the specification, continued -/

/-- C11: for every pizza, `getDescription` is the fixed label of the variant
("Vegan Pizza 🥦 / ", "Hawaiian Pizza 🍍 / " or "Pepperoni Pizza 🍕 / ")
followed by `getSize()`, " / ", `getIngredientsList()` and the decimal
rendering of `getCost()`; a Vegan medium pizza with Salt(5) x2 and Pepper(3)
x1 is described as "Vegan Pizza 🥦 / MD / Pepper: 1 / Salt: 2 / 710". -/
theorem getDescription_eq :
    (∀ p : Pizza, p.getDescription = p.getCost.map fun cost =>
      String.join [(match p.variant with
        | .vegan => "Vegan Pizza 🥦 / "
        | .hawaiian => "Hawaiian Pizza 🍍 / "
        | .pepperoni => "Pepperoni Pizza 🍕 / "),
        p.getSize, " / ", p.getIngredientsList, Nat.repr cost]) ∧
    (((VeganBuilder .medium).withTimes ⟨"Salt", 5⟩ 2).withTimes
        ⟨"Pepper", 3⟩ 1).getProduct.getDescription
      = some "Vegan Pizza 🥦 / MD / Pepper: 1 / Salt: 2 / 710" := by
  refine ⟨?_, by decide⟩
  intro p
  unfold Pizza.getDescription Pizza.getPizzaDetails
  cases p.variant <;> cases p.getCost <;>
    simp [String.join, String.append_assoc]

/-- The order step below `2^31`: for every order with the catalog of a new
Order, every size `s` and every choice map giving count `a` to index 0 and
count `b` to index 1 with `5a + 3b < 2^31`, the order step for a variant
appends one pizza of that variant and size whose composition is
{Salt: a, Pepper: b} and whose cost is
`baseCost * (s + 1) + floor (costMultiplier * (5a + 3b))`. -/
theorem order_step (o : Order) (s : Size) (a b : Nat)
    (hcat : o.availableIngredients = Order.new.availableIngredients)
    (h : 5 * a + 3 * b < 2 ^ 31) :
    Order.new = ⟨[⟨"Salt", 5⟩, ⟨"Pepper", 3⟩], []⟩ ∧
    (o.orderVeganPizza s (choiceMap a b) = some ⟨o.availableIngredients, o.pizzaListing ++
        [⟨.vegan, s, (if 0 < b then [(⟨"Pepper", 3⟩, b)] else [])
          ++ (if 0 < a then [(⟨"Salt", 5⟩, a)] else [])⟩]⟩ ∧
      (⟨.vegan, s, (if 0 < b then [(⟨"Pepper", 3⟩, b)] else [])
          ++ (if 0 < a then [(⟨"Salt", 5⟩, a)] else [])⟩ : Pizza).getCost
        = some (350 * (s.toNat + 1) + ⌊(0.8 : ℚ) * ((5 * a + 3 * b : ℕ) : ℚ)⌋₊)) ∧
    (o.orderHaiwaiianPizza s (choiceMap a b) = some ⟨o.availableIngredients, o.pizzaListing ++
        [⟨.hawaiian, s, (if 0 < b then [(⟨"Pepper", 3⟩, b)] else [])
          ++ (if 0 < a then [(⟨"Salt", 5⟩, a)] else [])⟩]⟩ ∧
      (⟨.hawaiian, s, (if 0 < b then [(⟨"Pepper", 3⟩, b)] else [])
          ++ (if 0 < a then [(⟨"Salt", 5⟩, a)] else [])⟩ : Pizza).getCost
        = some (450 * (s.toNat + 1) + ⌊(1.2 : ℚ) * ((5 * a + 3 * b : ℕ) : ℚ)⌋₊)) ∧
    (o.orderPepperoniPizza s (choiceMap a b) = some ⟨o.availableIngredients, o.pizzaListing ++
        [⟨.pepperoni, s, (if 0 < b then [(⟨"Pepper", 3⟩, b)] else [])
          ++ (if 0 < a then [(⟨"Salt", 5⟩, a)] else [])⟩]⟩ ∧
      (⟨.pepperoni, s, (if 0 < b then [(⟨"Pepper", 3⟩, b)] else [])
          ++ (if 0 < a then [(⟨"Salt", 5⟩, a)] else [])⟩ : Pizza).getCost
        = some (480 * (s.toNat + 1) + ⌊(1.5 : ℚ) * ((5 * a + 3 * b : ℕ) : ℚ)⌋₊)) := by
  have hcat' : o.availableIngredients = [⟨"Salt", 5⟩, ⟨"Pepper", 3⟩] := hcat
  have hcost : ∀ v : Variant, (⟨v, s, (if 0 < b then [(⟨"Pepper", 3⟩, b)] else [])
        ++ (if 0 < a then [(⟨"Salt", 5⟩, a)] else [])⟩ : Pizza).getCost
      = some ((⟨v, s, []⟩ : Pizza).getBaseCost * (s.toNat + 1) + exactShare v (5 * a + 3 * b)) := by
    intro v
    have hw := weightedSum_composition a b
    rw [getCost_of_weightedSum_lt _ (by rw [hw]; exact h)]
    simp only [hw]
    rfl
  rw [floor_vegan, floor_hawaiian, floor_pepperoni]
  exact ⟨rfl, ⟨order_step_variant .vegan o s a b hcat', hcost .vegan⟩,
    ⟨order_step_variant .hawaiian o s a b hcat', hcost .hawaiian⟩,
    ⟨order_step_variant .pepperoni o s a b hcat', hcost .pepperoni⟩⟩

/-- C12, at the failing input: on a new Order, whose catalog is
[Salt (cost 5), Pepper (cost 3)], the Vegan order step with size small and
Salt chosen 858993460 times appends the one pizza {Salt: 858993460} and leaves
the catalog unchanged, but the `int` sum of `getCost` wraps to 4, so the pizza
costs 353, where `baseCost * (s + 1) + floor (costMultiplier * (5a + 3b))` is
`350 * 1 + floor (0.8 * 4294967300) = 3435974190`. -/
theorem order_step_overflow :
    Order.new.orderVeganPizza .small (choiceMap 858993460 0)
      = some ⟨[⟨"Salt", 5⟩, ⟨"Pepper", 3⟩], [⟨.vegan, .small, [(⟨"Salt", 5⟩, 858993460)]⟩]⟩ ∧
    (⟨.vegan, .small, [(⟨"Salt", 5⟩, 858993460)]⟩ : Pizza).getCost = some 353 ∧
    350 * (Size.small.toNat + 1) + ⌊(0.8 : ℚ) * ((5 * 858993460 + 3 * 0 : ℕ) : ℚ)⌋₊
      = 3435974190 := by
  refine ⟨?_, by decide, ?_⟩
  · exact order_step_variant .vegan Order.new .small 858993460 0 rfl
  · rw [floor_vegan]; decide

/-- C13: the composition map treats two ingredients as the same key exactly
when their costs are equal; for `a` and `b` of equal cost and different names,
`add(a)` then `add(b)` on a fresh pizza leaves the one entry `a` with quantity
2, `getIngredientsList` shows `a`'s name only, and both the pizza and its list
differ from those of `add(b)` then `add(a)`. -/
theorem equal_cost_merges (v : Variant) (s : Size) (a b : Ingredient)
    (hc : a.cost = b.cost) (hn : a.name ≠ b.name) :
    (∀ x y : Ingredient, (!x.lt y && !y.lt x) = true ↔ x.cost = y.cost) ∧
    (((Pizza.fresh v s).add a).add b).ingredients = [(a, 2)] ∧
    (((Pizza.fresh v s).add a).add b).getIngredientsList = a.name ++ ": 2 / " ∧
    (((Pizza.fresh v s).add b).add a).ingredients = [(b, 2)] ∧
    (((Pizza.fresh v s).add b).add a).getIngredientsList = b.name ++ ": 2 / " ∧
    ((Pizza.fresh v s).add a).add b ≠ ((Pizza.fresh v s).add b).add a ∧
    (((Pizza.fresh v s).add a).add b).getIngredientsList
      ≠ (((Pizza.fresh v s).add b).add a).getIngredientsList := by
  have h0 : (Pizza.fresh v s).ingredients = [] := by cases v <;> rfl
  have hab : (((Pizza.fresh v s).add a).add b).ingredients = [(a, 2)] := by
    simp [Pizza.add, h0, bump, Ingredient.lt, hc]
  have hba : (((Pizza.fresh v s).add b).add a).ingredients = [(b, 2)] := by
    simp [Pizza.add, h0, bump, Ingredient.lt, hc]
  have htext : ∀ x : Ingredient, ∀ p : Pizza, p.ingredients = [(x, 2)] →
      p.getIngredientsList = x.name ++ ": 2 / " := by
    intro x p hp
    rw [getIngredientsList_eq_join, hp]
    simp only [List.map_cons, List.map_nil, String.join, List.foldl_cons, List.foldl_nil,
      entryText, String.append_assoc]
    have h2 : ": " ++ (Nat.repr 2 ++ " / ") = ": 2 / " := by decide
    rw [h2]
    exact String.empty_append _
  have hne : a ≠ b := fun h => hn (congrArg Ingredient.name h)
  refine ⟨?_, hab, htext a _ hab, hba, htext b _ hba, ?_, ?_⟩
  · intro x y
    simp only [Ingredient.lt, Bool.and_eq_true, Bool.not_eq_true', decide_eq_false_iff_not]
    omega
  · intro h
    have := congrArg Pizza.ingredients h
    rw [hab, hba] at this
    simp only [List.cons.injEq, Prod.mk.injEq, and_true] at this
    exact hne this
  · rw [htext a _ hab, htext b _ hba]
    exact append_right_ne _ _ _ hn

/-- Witness of C13: Salt(5) then Sugar(5) on a fresh small Vegan pizza. -/
theorem equal_cost_merges_witness :
    (⟨"Salt", 5⟩ : Ingredient).cost = (⟨"Sugar", 5⟩ : Ingredient).cost ∧
    (⟨"Salt", 5⟩ : Ingredient).name ≠ (⟨"Sugar", 5⟩ : Ingredient).name ∧
    (((Pizza.fresh .vegan .small).add ⟨"Salt", 5⟩).add ⟨"Sugar", 5⟩).getIngredientsList
      = "Salt" ++ ": 2 / " :=
  ⟨by decide, by decide,
    (equal_cost_merges .vegan .small ⟨"Salt", 5⟩ ⟨"Sugar", 5⟩ (by decide) (by decide)).2.2.1⟩

/-- C14: `getCost` accumulates the ingredient sum in a 32-bit signed `int`;
for every composition whose weighted sum of `cost * quantity` is below `2^31`
every partial sum is represented exactly and `getCost` equals
`baseCost * (sizeOrdinal + 1) + floor (costMultiplier * sum)`; at `2^31` the
accumulator wraps to `-2^31`. -/
theorem getCost_int_accumulation (p : Pizza) (h : weightedSum p.ingredients < 2 ^ 31) :
    (∀ n : Nat, (p.ingredients.take n).foldl reduceStep 0
        = ((weightedSum (p.ingredients.take n) : Nat) : Int)) ∧
    p.getCost = some (p.getBaseCost * (p.size.toNat + 1)
      + ⌊decimalMultiplier p.variant * (weightedSum p.ingredients : ℚ)⌋₊) ∧
    ([((⟨"Gold", 2147483648⟩ : Ingredient), 1)] : IngredientMap).foldl reduceStep 0
      = -2147483648 := by
  refine ⟨?_, ?_, by decide⟩
  · intro n
    rw [foldl_reduceStep_zero, toInt_of_lt _ (lt_of_le_of_lt (weightedSum_take_le _ n) h)]
  · rw [floor_decimal]
    exact getCost_of_weightedSum_lt p h

/-- Witness of C14: a Vegan medium pizza holding Pepper x1 and Salt x2. -/
theorem getCost_int_accumulation_witness :
    weightedSum (⟨.vegan, .medium, [(⟨"Pepper", 3⟩, 1), (⟨"Salt", 5⟩, 2)]⟩ : Pizza).ingredients
      < 2 ^ 31 ∧
    (⟨.vegan, .medium, [(⟨"Pepper", 3⟩, 1), (⟨"Salt", 5⟩, 2)]⟩ : Pizza).getCost
      = some (350 * (1 + 1) + ⌊decimalMultiplier .vegan * ((13 : ℕ) : ℚ)⌋₊) :=
  ⟨by decide,
    (getCost_int_accumulation ⟨.vegan, .medium, [(⟨"Pepper", 3⟩, 1), (⟨"Salt", 5⟩, 2)]⟩
      (by decide)).2.1⟩

/-- C15: `getCost` does not depend on the order of the `add` calls: for every
variant and size, two sequences of added ingredients that are permutations of
each other give pizzas of equal `getCost`, whatever their names and costs. -/
theorem getCost_perm (v : Variant) (s : Size) (adds adds' : List Ingredient)
    (h : adds.Perm adds') :
    (adds.foldl Pizza.add (Pizza.fresh v s)).getCost
      = (adds'.foldl Pizza.add (Pizza.fresh v s)).getCost := by
  obtain ⟨h1, h2, h3⟩ := foldl_add_fields adds (Pizza.fresh v s)
  obtain ⟨h1', h2', h3'⟩ := foldl_add_fields adds' (Pizza.fresh v s)
  apply getCost_congr
  · rw [h1, h1']
  · rw [h2, h2']
  · rw [h3, h3']
    unfold costSum
    rw [(h.map _).sum_eq]

/-- Witness of C15: Salt(5), Sugar(5), Pepper(3) added in two orders; the map
merges Salt and Sugar under the name added first. -/
theorem getCost_perm_witness :
    ([⟨"Salt", 5⟩, ⟨"Sugar", 5⟩, ⟨"Pepper", 3⟩] : List Ingredient).Perm
      [⟨"Sugar", 5⟩, ⟨"Salt", 5⟩, ⟨"Pepper", 3⟩] ∧
    (([⟨"Salt", 5⟩, ⟨"Sugar", 5⟩, ⟨"Pepper", 3⟩] : List Ingredient).foldl Pizza.add
        (Pizza.fresh .hawaiian .large)).getCost
      = (([⟨"Sugar", 5⟩, ⟨"Salt", 5⟩, ⟨"Pepper", 3⟩] : List Ingredient).foldl Pizza.add
        (Pizza.fresh .hawaiian .large)).getCost :=
  ⟨List.Perm.swap _ _ _,
    getCost_perm .hawaiian .large [⟨"Salt", 5⟩, ⟨"Sugar", 5⟩, ⟨"Pepper", 3⟩]
      [⟨"Sugar", 5⟩, ⟨"Salt", 5⟩, ⟨"Pepper", 3⟩] (List.Perm.swap _ _ _)⟩

/-- The price change of `add` below `2^31`: for every pizza state and every
ingredient `i` such that the weighted ingredient sum after `add(i)` stays
below `2^31`, `getCost` after `add(i)` is at least `getCost` before, and the
increase is at most `ceil (costMultiplier * i.cost)`. -/
theorem add_raises_cost (p : Pizza) (i : Ingredient)
    (h : weightedSum p.ingredients + i.cost < 2 ^ 31) :
    ∃ c c' : Nat, p.getCost = some c ∧ (p.add i).getCost = some c' ∧ c ≤ c' ∧
      c' - c ≤ ⌈decimalMultiplier p.variant * (i.cost : ℚ)⌉₊ := by
  have hw : weightedSum (p.add i).ingredients = weightedSum p.ingredients + i.cost :=
    weightedSum_bump _ _
  have e1 := getCost_of_weightedSum_lt p (by omega)
  have e2 := getCost_of_weightedSum_lt (p.add i) (by rw [hw]; exact h)
  rw [hw] at e2
  refine ⟨_, _, e1, e2, ?_, ?_⟩
  · show p.getBaseCost * (p.size.toNat + 1) + _ ≤ p.getBaseCost * (p.size.toNat + 1) + _
    apply Nat.add_le_add_left
    show exactShare p.variant _ ≤ exactShare p.variant _
    cases p.variant <;> simp only [exactShare] <;> omega
  · apply le_ceil_decimal
    show match p.variant with
      | .vegan => _
      | .hawaiian => _
      | .pepperoni => _
    have hb : (p.add i).getBaseCost * ((p.add i).size.toNat + 1)
        = p.getBaseCost * (p.size.toNat + 1) := rfl
    have hv : (p.add i).variant = p.variant := rfl
    rw [hb, hv]
    cases p.variant <;> simp only [exactShare] <;> omega

/-- C16, at the failing input: a small Vegan pizza holding Salt(5) costs 354;
after `add` of an ingredient of unit cost `2^32 - 5` the `int` accumulator
that the literal `0` gives `std::reduce` wraps to 0 and the pizza costs 350:
adding an ingredient lowered the price. -/
theorem add_lowers_cost :
    ((VeganPizza .small).add ⟨"Salt", 5⟩).getCost = some 354 ∧
    (((VeganPizza .small).add ⟨"Salt", 5⟩).add ⟨"Saffron", 4294967291⟩).getCost = some 350 := by
  decide

/-- C17: for every sequence of integer inputs that contains -1,
`inputIngredients` returns; the choice map has only keys `k` with
`0 <= k < catalog size`, in ascending order, each mapped to the number of times
`k` was entered before the first -1 (at least 1), every index entered is a
key, and the other inputs are ignored (dropping them gives the same map);
hence every `availableIngredients[key]` of the order methods is in bounds and
they are defined. -/
theorem inputIngredients_in_bounds (o : Order) (input : List Int) (h : (-1 : Int) ∈ input) :
    ∃ (choice : IngredientsChoice) (pre rest : List Int),
      o.inputIngredients input = some (choice, rest) ∧
      input = pre ++ (-1) :: rest ∧ (-1 : Int) ∉ pre ∧
      (∀ e ∈ choice, 0 ≤ e.1 ∧ e.1 < o.availableIngredients.length ∧
        e.2 = pre.count (e.1 : Int) ∧ 1 ≤ e.2) ∧
      (∀ k : Nat, k < o.availableIngredients.length → (k : Int) ∈ pre → ∃ q, (k, q) ∈ choice) ∧
      (choice.Pairwise fun e e' => e.1 < e'.1) ∧
      (o.inputIngredients (input.filter fun c =>
          decide (c = -1 ∨ (0 ≤ c ∧ c.toNat < o.availableIngredients.length)))).map Prod.fst
        = some choice ∧
      (∀ e ∈ choice, (o.availableIngredients[e.1]?).isSome) ∧
      ∀ s : Size, (o.orderVeganPizza s choice).isSome ∧ (o.orderHaiwaiianPizza s choice).isSome ∧
        (o.orderPepperoniPizza s choice).isSome := by
  obtain ⟨choice, pre, rest, h1, h2, h3, h4, h5, h6⟩ :=
    inputIngredientsLoop_spec o.availableIngredients input [] h
  have hs := h5 List.Pairwise.nil
  have hb := h6 (fun e he => absurd he (List.not_mem_nil e))
  have hkeys : ∀ e ∈ choice, e.1 < o.availableIngredients.length := fun e he => (hb e he).1
  refine ⟨choice, pre, rest, h1, h2, h3, ?_, ?_, hs, ?_, ?_, ?_⟩
  · intro e he
    have hc := chosen_of_mem choice hs e he
    have h4e := h4 e.1
    rw [hc, if_pos (hb e he).1] at h4e
    have h0 : chosen [] e.1 = 0 := rfl
    exact ⟨Nat.zero_le _, (hb e he).1, by omega, (hb e he).2⟩
  · intro k hk hmem
    apply mem_of_chosen_pos
    rw [h4 k, if_pos hk]
    have := List.count_pos_iff.2 hmem
    omega
  · have := inputIngredientsLoop_filter o.availableIngredients input []
    unfold Order.inputIngredients
    rw [this, h1]
    rfl
  · intro e he
    rw [List.getElem?_eq_getElem (hkeys e he)]
    rfl
  · intro s
    unfold Order.orderVeganPizza Order.orderHaiwaiianPizza Order.orderPepperoniPizza
    simp only [Option.isSome_map']
    exact ⟨withChoices_isSome _ _ _ hkeys, withChoices_isSome _ _ _ hkeys,
      withChoices_isSome _ _ _ hkeys⟩

/-- Witness of C17: the inputs 0, 7, 1, 0, -3, -1, 5 on a new Order. -/
theorem inputIngredients_in_bounds_witness :
    (-1 : Int) ∈ [0, 7, 1, 0, -3, -1, 5] ∧
    Order.new.inputIngredients [0, 7, 1, 0, -3, -1, 5] = some ([(0, 2), (1, 1)], [5]) ∧
    ∃ (choice : IngredientsChoice) (pre rest : List Int),
      Order.new.inputIngredients [0, 7, 1, 0, -3, -1, 5] = some (choice, rest) ∧
      [0, 7, 1, 0, -3, -1, 5] = pre ++ (-1) :: rest :=
  ⟨by decide, by decide,
    (inputIngredients_in_bounds Order.new [0, 7, 1, 0, -3, -1, 5] (by decide)).imp
      fun _ hc => hc.imp fun _ hp => hp.imp fun _ hr => ⟨hr.1, hr.2.1⟩⟩

/-- C7, at the failing input: the Vegan order step with Salt chosen 858993208
times and Pepper twice records, at size medium and at size large, a pizza
whose weighted ingredient sum 4294966046 becomes -1250 in the `int`
accumulator of `getCost`; the product `0.8 * -1250 = -1000.0` has no `size_t`
value, so `getCost` is undefined at both sizes and there is no cost at medium
to be at most the cost at large. -/
theorem getCost_undefined_on_wrapped_sum :
    Order.new.orderVeganPizza .medium (choiceMap 858993208 2)
      = some ⟨[⟨"Salt", 5⟩, ⟨"Pepper", 3⟩],
          [⟨.vegan, .medium, [(⟨"Pepper", 3⟩, 2), (⟨"Salt", 5⟩, 858993208)]⟩]⟩ ∧
    Order.new.orderVeganPizza .large (choiceMap 858993208 2)
      = some ⟨[⟨"Salt", 5⟩, ⟨"Pepper", 3⟩],
          [⟨.vegan, .large, [(⟨"Pepper", 3⟩, 2), (⟨"Salt", 5⟩, 858993208)]⟩]⟩ ∧
    weightedSum [(⟨"Pepper", 3⟩, 2), (⟨"Salt", 5⟩, 858993208)] = 4294966046 ∧
    ([(⟨"Pepper", 3⟩, 2), (⟨"Salt", 5⟩, 858993208)] : IngredientMap).foldl reduceStep 0
      = -1250 ∧
    roundSig (7205759403792794 * 1250) / 2 ^ 53 = 1000 ∧
    (⟨.vegan, .medium, [(⟨"Pepper", 3⟩, 2), (⟨"Salt", 5⟩, 858993208)]⟩ : Pizza).getCost = none ∧
    (⟨.vegan, .large, [(⟨"Pepper", 3⟩, 2), (⟨"Salt", 5⟩, 858993208)]⟩ : Pizza).getCost = none := by
  refine ⟨?_, ?_, by decide, by decide, by decide, by decide, by decide⟩
  · exact order_step_variant .vegan Order.new .medium 858993208 2 rfl
  · exact order_step_variant .vegan Order.new .large 858993208 2 rfl

end Pizzeria
